import Mathlib

/-
Shallow embedding of the Dainify preview-conversion worker
(src/unnamed/part_001) and proofs about its specified behavior.

Strings are modelled as lists of characters wrapped into String at the
outer interfaces.  The WHATWG URL constructor invoked by resolveRelative
(new URL(rel, base).toString()) is modelled by an executable parser and
reference-resolver for scheme://host/path?query#fragment URLs; the model
lowercases scheme and authority, removes dot segments, percent-encodes
the characters space, double quote, < and > in paths, queries and
fragments, strips tab/CR/LF, and treats scheme-carrying references
without a following // as opaque.  Default-port elision, backslash
normalization and IDNA are not modelled; no theorem below depends on
them.
-/

namespace Dainify

abbrev Chars := List Char

/-- ASCII lowercasing of one character, as performed by case-insensitive
regex tests and by URL scheme/host normalization. -/
def lowerChar (c : Char) : Char :=
  if 65 ≤ c.toNat ∧ c.toNat ≤ 90 then Char.ofNat (c.toNat + 32) else c

/-- ASCII lowercasing of a character list. -/
def lowerC (l : Chars) : Chars := l.map lowerChar

/-- Whitespace as stripped by String.prototype.trim, restricted to the
ASCII whitespace characters that occur in playlists. -/
def isWsChar (c : Char) : Bool := c == ' ' || c == '\t' || c == '\n' || c == '\r'

/-- Both-ends whitespace trimming, modelling String.prototype.trim. -/
def trimC (l : Chars) : Chars :=
  ((l.dropWhile isWsChar).reverse.dropWhile isWsChar).reverse

/-- Removal of all tab, LF and CR characters, as done by the WHATWG URL
parser after trimming. -/
def stripCtl (l : Chars) : Chars :=
  l.filter (fun c => !(c == '\t' || c == '\n' || c == '\r'))

/-- Input cleansing of the WHATWG URL parser: trim both ends, then strip
all tab/LF/CR characters. -/
def cleanse (l : Chars) : Chars := stripCtl (trimC l)

/-- Splitting on the newline character; a trailing piece is always
produced, so the result is never empty. -/
def splitNl : Chars → List Chars
  | [] => [[]]
  | c :: rest =>
    if c = '\n' then [] :: splitNl rest
    else
      match splitNl rest with
      | [] => [[c]]
      | l :: ls => (c :: l) :: ls

/-- Removal of one trailing carriage return, so that splitting on the
regex of an optional CR followed by LF is modelled by splitting on LF and
stripping a final CR from each piece that a LF terminated. -/
def stripCr (l : Chars) : Chars :=
  match l.getLast? with
  | some '\r' => l.dropLast
  | _ => l

/-- Application of a function to every element but the last: after the
split on LF, exactly the pieces other than the final one were terminated
by a LF of the text. -/
def mapExceptLast (f : Chars → Chars) : List Chars → List Chars
  | [] => []
  | [a] => [a]
  | a :: b :: rest => f a :: mapExceptLast f (b :: rest)

/-- The split performed by text.split of an optional CR followed by LF:
the regex consumes a CR only together with the following LF, so the
final piece keeps a bare trailing CR. -/
def splitLinesC (l : Chars) : List Chars := mapExceptLast stripCr (splitNl l)

/-- Joining lines with a newline, modelling Array.prototype.join. -/
def joinNl : List Chars → Chars
  | [] => []
  | [l] => l
  | l :: ls => l ++ '\n' :: joinNl ls

/-- Case-insensitive anchored prefix test: the case-insensitive regex
tests of the source anchored at the line start, with the pattern given in
lowercase. -/
def leadsCI (pat l : Chars) : Bool := decide ((lowerC l).take pat.length = pat)

/-- Case-insensitive unanchored substring test, for regex tests without a
start anchor. -/
def hasSubCI (pat l : Chars) : Bool := l.tails.any (fun t => leadsCI pat t)

/-- ASCII letter test for the first character of a URL scheme. -/
def isSchemeStart (c : Char) : Bool :=
  (65 ≤ c.toNat && c.toNat ≤ 90) || (97 ≤ c.toNat && c.toNat ≤ 122)

/-- ASCII digit test. -/
def isDigitC (c : Char) : Bool := 48 ≤ c.toNat && c.toNat ≤ 57

/-- Characters allowed after the first character of a URL scheme. -/
def isSchemeChar (c : Char) : Bool :=
  isSchemeStart c || isDigitC c || c == '+' || c == '-' || c == '.'

/-- Scheme scanning after its first character: consume scheme characters
up to a colon. -/
def schemeTail : Chars → Option (Chars × Chars)
  | [] => none
  | c :: r =>
    if c = ':' then some ([], r)
    else if isSchemeChar c then (schemeTail r).map (fun p => (c :: p.1, p.2)) else none

/-- Splitting a candidate URL into scheme and remainder, returning none
when no valid scheme followed by a colon is present. -/
def schemeSplit : Chars → Option (Chars × Chars)
  | [] => none
  | c :: r =>
    if isSchemeStart c then (schemeTail r).map (fun p => (c :: p.1, p.2)) else none

/-- Splitting on the slash character; never returns an empty list. -/
def splitSlash : Chars → List Chars
  | [] => [[]]
  | c :: rest =>
    if c = '/' then [] :: splitSlash rest
    else
      match splitSlash rest with
      | [] => [[c]]
      | l :: ls => (c :: l) :: ls

/-- Joining path segments with slashes. -/
def joinSlash : List Chars → Chars
  | [] => []
  | [l] => l
  | l :: ls => l ++ '/' :: joinSlash ls

/-- Percent-encoding of one character from the modelled encode set. -/
def encChar (c : Char) : Chars :=
  if c = ' ' then ['%', '2', '0']
  else if c = '"' then ['%', '2', '2']
  else if c = '<' then ['%', '3', 'C']
  else if c = '>' then ['%', '3', 'E']
  else [c]

/-- Percent-encoding of a path segment. -/
def encodeC (l : Chars) : Chars := l.flatMap encChar

/-- Percent-encoding of the query/fragment part, keeping the question
mark and hash characters intact. -/
def encodeTailC (l : Chars) : Chars :=
  l.flatMap (fun c => if c = '?' || c = '#' then [c] else encChar c)

/-- Single-dot path segment test. -/
def isDotSeg (s : Chars) : Bool := s == ['.']

/-- Double-dot path segment test. -/
def isDotDotSeg (s : Chars) : Bool := s == ['.', '.']

/-- One step of dot-segment removal. -/
def rdsStep (acc : List Chars) (s : Chars) : List Chars :=
  if isDotSeg s then acc else if isDotDotSeg s then acc.dropLast else acc ++ [s]

/-- Dot-segment removal over a parsed path, with the WHATWG rule that a
trailing dot or double-dot segment leaves a trailing empty segment. -/
def removeDotSegments (segs : List Chars) : List Chars :=
  match segs.getLast? with
  | some s =>
    if isDotSeg s || isDotDotSeg s then segs.foldl rdsStep [] ++ [[]]
    else segs.foldl rdsStep []
  | none => segs.foldl rdsStep []

/-- Authority validity: nonempty and free of characters that make the
WHATWG host parser fail. -/
def authOkB (auth : Chars) : Bool :=
  !auth.isEmpty &&
    auth.all (fun c => !(c == ' ' || c == '"' || c == '<' || c == '>' || c == '/' || c == '?' || c == '#'))

/-- Parsed URL: either a hierarchical scheme://host/path?query#fragment
record or an opaque scheme-carrying reference kept verbatim. -/
inductive UrlR where
  | hier (sch host : Chars) (segs : List Chars) (tail : Chars)
  | flat (text : Chars)
deriving DecidableEq

/-- Serialization of a parsed URL, modelling URL.prototype.toString. -/
def renderUrl : UrlR → Chars
  | .hier sch host segs tail =>
      sch ++ ':' :: '/' :: '/' :: (host ++ '/' :: (joinSlash segs ++ tail))
  | .flat t => t

/-- Character test for the end of the authority component. -/
def notAuthEnd (c : Char) : Bool := !(c == '/' || c == '?' || c == '#')

/-- Character test for the start of the query or fragment. -/
def notTailStart (c : Char) : Bool := !(c == '?' || c == '#')

/-- Parsing the part after scheme:// of a hierarchical URL. -/
def parseHier (sch rest2 : Chars) : Option UrlR :=
  if authOkB (rest2.takeWhile notAuthEnd) then
    some (.hier (lowerC sch) (lowerC (rest2.takeWhile notAuthEnd))
      (removeDotSegments ((splitSlash
        ((if ((rest2.dropWhile notAuthEnd).takeWhile notTailStart) = [] then ['/']
          else (rest2.dropWhile notAuthEnd).takeWhile notTailStart).drop 1)).map encodeC))
      (encodeTailC ((rest2.dropWhile notAuthEnd).dropWhile notTailStart)))
  else none

/-- Parsing an absolute URL, modelling the one-argument WHATWG URL
constructor on the modelled subset. -/
def parseAbsolute (s0 : Chars) : Option UrlR :=
  match schemeSplit (cleanse s0) with
  | none => none
  | some (sch, rest) =>
    if rest.take 2 = ['/', '/'] then parseHier sch (rest.drop 2)
    else some (.flat (cleanse s0))

/-- Removal of the fragment part of a stored URL tail. -/
def dropFragC (l : Chars) : Chars := l.takeWhile (fun c => !(c == '#'))

/-- Reference resolution, modelling new URL(rel, base).toString(); none
models the constructor throwing. -/
def urlResolveC (base rel : Chars) : Option Chars :=
  match schemeSplit (cleanse rel) with
  | some _ => (parseAbsolute (cleanse rel)).map renderUrl
  | none =>
    match parseAbsolute base with
    | some (.hier sch host segs tail) =>
      if (cleanse rel).take 2 = ['/', '/'] then
        (parseAbsolute (sch ++ ':' :: cleanse rel)).map renderUrl
      else if (cleanse rel).head? = some '/' then
        some (renderUrl (.hier sch host
          (removeDotSegments ((splitSlash
            (((cleanse rel).takeWhile notTailStart).drop 1)).map encodeC))
          (encodeTailC ((cleanse rel).dropWhile notTailStart))))
      else if (cleanse rel).head? = some '?' then
        some (renderUrl (.hier sch host segs (encodeTailC (cleanse rel))))
      else if (cleanse rel).head? = some '#' then
        some (renderUrl (.hier sch host segs (dropFragC tail ++ encodeTailC (cleanse rel))))
      else if cleanse rel = [] then
        some (renderUrl (.hier sch host segs (dropFragC tail)))
      else
        some (renderUrl (.hier sch host
          (removeDotSegments (segs.dropLast ++
            (splitSlash ((cleanse rel).takeWhile notTailStart)).map encodeC))
          (encodeTailC ((cleanse rel).dropWhile notTailStart))))
    | _ => none

/-- The function resolveRelative of the source: try new URL(rel, base)
and fall back to the unmodified input when the constructor throws. -/
def resolveRelativeC (base rel : Chars) : Chars := (urlResolveC base rel).getD rel

/-- String-level wrapper of resolveRelativeC. -/
def resolveRelative (base rel : String) : String :=
  String.mk (resolveRelativeC base.data rel.data)

/-- Test whether a character list carries a URL scheme. -/
def hasSchemeB (l : Chars) : Bool := (schemeSplit l).isSome

/-- Lowercase pattern of the encryption-key tag. -/
def keyTagPat : Chars := "#ext-x-key".data

/-- Lowercase pattern of the initialization-map tag. -/
def mapTagPat : Chars := "#ext-x-map".data

/-- Lowercase pattern of the end-of-list tag. -/
def endlistPat : Chars := "#ext-x-endlist".data

/-- Lowercase pattern of the stream-info tag. -/
def streamInfPat : Chars := "#ext-x-stream-inf".data

/-- Lowercase pattern of the segment-duration tag. -/
def extinfPat : Chars := "#extinf:".data

/-- Anchored case-insensitive test for the encryption-key tag. -/
def keyTag (l : Chars) : Bool := leadsCI keyTagPat l

/-- Anchored case-insensitive test for the initialization-map tag. -/
def mapTag (l : Chars) : Bool := leadsCI mapTagPat l

/-- Anchored case-insensitive test for the end-of-list tag. -/
def endlistTag (l : Chars) : Bool := leadsCI endlistPat l

/-- Anchored case-insensitive test for the stream-info tag. -/
def streamInfLine (l : Chars) : Bool := leadsCI streamInfPat l

/-- Replacement text URI and an opening double quote, written by the
replacement callback in uppercase regardless of the matched case. -/
def uriPat : Chars := ['U', 'R', 'I', '=', '"']

/-- Lowercase pattern of the URI attribute opening. -/
def uriLowerPat : Chars := "uri=\"".data

/-- Attempt to match the regex of URI, an equals sign, a quoted nonempty
capture free of double quotes, at the head of the list; returns the
capture and the characters after the closing quote. -/
def tryMatchAt (l : Chars) : Option (Chars × Chars) :=
  if leadsCI uriLowerPat l then
    if ((l.drop 5).takeWhile (fun c => !(c == '"'))).isEmpty then none
    else if ((l.drop 5).dropWhile (fun c => !(c == '"'))).isEmpty then none
    else some ((l.drop 5).takeWhile (fun c => !(c == '"')),
      ((l.drop 5).dropWhile (fun c => !(c == '"'))).drop 1)
  else none

/-- Scan for the first full match of the URI attribute regex and replace
it, resolving the captured value against the base URL. -/
def scanReplace (b : Chars) : Chars → Option Chars
  | [] => none
  | c :: t =>
    match tryMatchAt (c :: t) with
    | some (cap, aft) => some (uriPat ++ (resolveRelativeC b cap ++ '"' :: aft))
    | none => (scanReplace b t).map (fun l => c :: l)

/-- The replace call of the source on key/map tag lines: first match of
the URI attribute replaced, or the line unchanged when there is none. -/
def replaceUri (b l : Chars) : Chars := (scanReplace b l).getD l

/-- Per-line transformation of absolutizePlaylist: key and map tag lines
get their URI attribute resolved, other tag lines and blank lines pass
unchanged, and every other line is trimmed and resolved against the base
URL. -/
def absLine (b ln : Chars) : Chars :=
  if keyTag ln then replaceUri b ln
  else if mapTag ln then replaceUri b ln
  else if ln.head? == some '#' || (trimC ln).isEmpty then ln
  else resolveRelativeC b (trimC ln)

/-- The constant end-of-list line appended by absolutizePlaylist. -/
def endlistLine : Chars := "#EXT-X-ENDLIST".data

/-- The function absolutizePlaylist of the source on character lists:
transform each line, append the end-of-list tag when no transformed line
carries one, and join with newlines. -/
def absolutizeChars (text base : Chars) : Chars :=
  joinNl
    (if ((splitLinesC text).map (absLine base)).any endlistTag
     then (splitLinesC text).map (absLine base)
     else (splitLinesC text).map (absLine base) ++ [endlistLine])

/-- String-level wrapper of absolutizeChars, the absolutizePlaylist of
the source. -/
def absolutizePlaylist (text baseUrl : String) : String :=
  String.mk (absolutizeChars text.data baseUrl.data)

/-- Absence of the ASCII whitespace characters. -/
def AllNotWs (l : Chars) : Prop := ∀ c ∈ l, isWsChar c = false

/-- Well-formed scheme component: nonempty, starting with a letter, made
of scheme characters, already lowercased. -/
def GoodScheme (s : Chars) : Prop :=
  (∃ c r, s = c :: r ∧ isSchemeStart c = true)
  ∧ (∀ c ∈ s, isSchemeChar c = true)
  ∧ (∀ c ∈ s, lowerChar c = c)

/-- Well-formed host component: accepted by the authority check, already
lowercased, free of tab, LF and CR. -/
def GoodHost (h : Chars) : Prop :=
  authOkB h = true
  ∧ (∀ c ∈ h, lowerChar c = c)
  ∧ (∀ c ∈ h, c ≠ '\t' ∧ c ≠ '\n' ∧ c ≠ '\r')

/-- Well-formed path segment: free of separators, of the encode set and
of tab, LF and CR. -/
def GoodSeg (s : Chars) : Prop :=
  ∀ c ∈ s, c ≠ '/' ∧ c ≠ '?' ∧ c ≠ '#' ∧ c ≠ ' ' ∧ c ≠ '"' ∧ c ≠ '<' ∧ c ≠ '>'
    ∧ c ≠ '\t' ∧ c ≠ '\n' ∧ c ≠ '\r'

/-- Well-formed query/fragment part: empty or starting with a question
mark or hash, free of the encode set and of tab, LF and CR. -/
def GoodTail (t : Chars) : Prop :=
  (t = [] ∨ t.head? = some '?' ∨ t.head? = some '#')
  ∧ ∀ c ∈ t, c ≠ ' ' ∧ c ≠ '"' ∧ c ≠ '<' ∧ c ≠ '>' ∧ c ≠ '\t' ∧ c ≠ '\n' ∧ c ≠ '\r'

/-- Absence of dot and double-dot segments. -/
def NoDots (segs : List Chars) : Prop :=
  ∀ s ∈ segs, isDotSeg s = false ∧ isDotDotSeg s = false

/-- Well-formedness invariant of parsed URL records as produced by the
parser and the resolver; renderings of such records reparse to the same
record. -/
def GoodUrl : UrlR → Prop
  | .hier sch host segs tail =>
      GoodScheme sch ∧ GoodHost host ∧ segs ≠ [] ∧ (∀ s ∈ segs, GoodSeg s)
        ∧ NoDots segs ∧ GoodTail tail
  | .flat t =>
      cleanse t = t ∧ ∃ p, schemeSplit t = some p ∧ ¬(p.2.take 2 = ['/', '/'])

/-- The base URL parses as a hierarchical absolute URL, so that reference
resolution never throws. -/
def IsHierBase (b : Chars) : Prop :=
  ∃ sch host segs tail, parseAbsolute b = some (.hier sch host segs tail)

/-- No line of a split text ends in a bare carriage return (one not
consumed by the line split). -/
def NoStrayCr (t : Chars) : Prop :=
  ∀ ln ∈ splitLinesC t, ln.getLast? ≠ some '\r'

instance (t : Chars) : Decidable (NoStrayCr t) :=
  inferInstanceAs (Decidable (∀ ln ∈ splitLinesC t, ln.getLast? ≠ some '\r'))

/-- The master-playlist classifier of the source: an unanchored
case-insensitive substring test for the stream-info tag. -/
def isMasterPlaylist (text : Chars) : Bool := hasSubCI streamInfPat text

/-- The media-playlist classifier of the source: an unanchored
case-insensitive substring test for the segment-duration tag. -/
def isMediaPlaylist (text : Chars) : Bool := hasSubCI extinfPat text

/-- Numeric value of a digit run, as produced by Number on the capture. -/
def digitsVal (l : Chars) : Nat := l.foldl (fun acc c => 10 * acc + (c.toNat - 48)) 0

/-- Lowercase pattern of the bandwidth attribute. -/
def bwPat : Chars := "bandwidth=".data

/-- Scan for the first case-insensitive occurrence of the bandwidth
attribute followed by at least one digit, returning its numeric value. -/
def bwScan : Chars → Option Nat
  | [] => none
  | c :: t =>
    if leadsCI bwPat (c :: t) then
      let ds := ((c :: t).drop 10).takeWhile isDigitC
      if ds.isEmpty then bwScan t else some (digitsVal ds)
    else bwScan t

/-- Bandwidth of a stream-info line: the matched numeric value, or zero
when the attribute regex has no match. -/
def bandwidthOf (l : Chars) : Nat := (bwScan l).getD 0

/-- Rendition candidate parsed from a master playlist. -/
structure RenditionCandidate where
  bandwidth : Nat
  url : Chars
deriving DecidableEq, Repr

/-- The inner scan of parseVariantsFromMaster: the first following line
that is nonblank after trimming and does not start with a hash, resolved
against the base URL. -/
def findNextUrl (baseUrl : Chars) : List Chars → Option Chars
  | [] => none
  | l :: ls =>
    let cand := trimC l
    if cand.isEmpty || cand.head? == some '#' then findNextUrl baseUrl ls
    else some (resolveRelativeC baseUrl cand)

/-- The line loop of parseVariantsFromMaster. -/
def parseVariantsLoop (baseUrl : Chars) : List Chars → List RenditionCandidate
  | [] => []
  | l :: ls =>
    if streamInfLine l then
      match findNextUrl baseUrl ls with
      | some u => { bandwidth := bandwidthOf l, url := u } :: parseVariantsLoop baseUrl ls
      | none => parseVariantsLoop baseUrl ls
    else parseVariantsLoop baseUrl ls

/-- The function parseVariantsFromMaster of the source. -/
def parseVariantsFromMaster (text baseUrl : Chars) : List RenditionCandidate :=
  parseVariantsLoop baseUrl (splitLinesC text)

instance : IsTotal RenditionCandidate (fun a b => a.bandwidth ≤ b.bandwidth) :=
  ⟨fun a b => Nat.le_total a.bandwidth b.bandwidth⟩

instance : IsTrans RenditionCandidate (fun a b => a.bandwidth ≤ b.bandwidth) :=
  ⟨fun _ _ _ hab hbc => Nat.le_trans hab hbc⟩

/-- Stable ascending sort by bandwidth, modelling the stable
Array.prototype.sort with the comparator on bandwidth. -/
def sortByBandwidth (l : List RenditionCandidate) : List RenditionCandidate :=
  List.insertionSort (fun a b => a.bandwidth ≤ b.bandwidth) l

/-- The function pickMedianVariant of the source: null on an empty list,
else the entry at index floor of half the length of the bandwidth-sorted
copy, falling back to the first sorted entry. -/
def pickMedianVariant (variants : List RenditionCandidate) : Option RenditionCandidate :=
  if variants.isEmpty then none
  else
    let sorted := sortByBandwidth variants
    (sorted.get? (variants.length / 2)).orElse (fun _ => sorted.get? 0)

/-- Errors of the master-playlist stage of fetchAndPrepareM3U8. -/
inductive PrepError where
  | noRenditions
  | invalidRendition
deriving DecidableEq, Repr

/-- The master-playlist stage of fetchAndPrepareM3U8: when the text
classifies as a master playlist, parse its rendition candidates, fail
when none was parsed, otherwise fetch the picked rendition and require it
to classify as a media playlist; fetch abstracts the HTTP GET, and the
picked URL becomes the new base URL. -/
def resolveMasterStage (text baseUrl : Chars) (fetch : Chars → Chars) :
    Except PrepError (Chars × Chars) :=
  if isMasterPlaylist text then
    let variants := parseVariantsFromMaster text baseUrl
    match (pickMedianVariant variants).orElse (fun _ => variants.head?) with
    | none => .error .noRenditions
    | some pick =>
      let t2 := fetch pick.url
      if isMediaPlaylist t2 then .ok (t2, pick.url) else .error .invalidRendition
  else .ok (text, baseUrl)

/-- Raw variant record with the alternate field spellings probed by the
normalizer; absent and non-string valued fields are none, and the index
and id fields are present only when carrying numbers. -/
structure RawVariant where
  audioUrl : Option String := none
  audio_url : Option String := none
  audio_url_mp3 : Option String := none
  mp3_url : Option String := none
  audio : Option String := none
  streamUrl : Option String := none
  stream_url : Option String := none
  hls_url : Option String := none
  m3u8_url : Option String := none
  audio_hls : Option String := none
  hls : Option String := none
  imageUrl : Option String := none
  image_url : Option String := none
  cover_image_url : Option String := none
  cover : Option String := none
  thumbnail_url : Option String := none
  image : Option String := none
  title : Option String := none
  name : Option String := none
  track_title : Option String := none
  index : Option Int := none
  id : Option Int := none
deriving DecidableEq

/-- Normalized variant record. -/
structure Variant where
  audioUrl : Option String
  streamUrl : Option String
  imageUrl : Option String
  title : String
  index : Int
deriving DecidableEq, Repr

/-- JavaScript logical-or on optional strings: the empty string is falsy
and falls through to the right operand. -/
def jsOr (a b : Option String) : Option String :=
  match a with
  | some s => if s = "" then b else some s
  | none => b

/-- The function normalizeVariant of the source: first truthy value among
the alternate spellings per field, a generated default title, and the
index taken from a numeric index field, else a numeric id field, else the
position. -/
def normalizeVariant (raw : RawVariant) (i : Nat) : Variant :=
  { audioUrl := jsOr raw.audioUrl (jsOr raw.audio_url (jsOr raw.audio_url_mp3
      (jsOr raw.mp3_url (jsOr raw.audio none))))
  , streamUrl := jsOr raw.streamUrl (jsOr raw.stream_url (jsOr raw.hls_url
      (jsOr raw.m3u8_url (jsOr raw.audio_hls (jsOr raw.hls none)))))
  , imageUrl := jsOr raw.imageUrl (jsOr raw.image_url (jsOr raw.cover_image_url
      (jsOr raw.cover (jsOr raw.thumbnail_url (jsOr raw.image none)))))
  , title := (jsOr raw.title (jsOr raw.name (jsOr raw.track_title none))).getD
      ("Song Variant " ++ toString (i + 1))
  , index :=
      match raw.index with
      | some n => n
      | none =>
        match raw.id with
        | some n => n
        | none => (i : Int) }

/-- The batch normalization map of the request handler. -/
def normalizeAll (raws : List RawVariant) : List Variant :=
  raws.enum.map (fun p => normalizeVariant p.2 p.1)

/-- Truthiness of the URL pair of a normalized variant. -/
def hasUrlB (v : Variant) : Bool := v.audioUrl.isSome || v.streamUrl.isSome

/-- Indices recorded in the diagnostic listing of variants that carry
neither URL, as computed by the request handler. -/
def recordedInvalidIdx (raws : List RawVariant) : List Nat :=
  (((normalizeAll raws).enum).filter (fun p => !hasUrlB p.2)).map (fun p => p.1)

/-- The set of variants handed to the concurrency limiter by the request
handler: every normalized variant, with no exclusion. -/
def scheduledVariants (raws : List RawVariant) : List Variant := normalizeAll raws

/-- Suffix test on strings, modelling String.prototype.endsWith. -/
def strEnds (s suffx : String) : Bool := suffx.data.isSuffixOf s.data

/-- Leading-part test on strings, modelling String.prototype.startsWith. -/
def strStarts (s leadp : String) : Bool := leadp.data.isPrefixOf s.data

/-- The pure content of uploadFilesToR2: the object keys and content
types of the uploads it issues for a directory listing and key prefix. -/
def uploadFilesToR2 (files : List String) (keyPre : String) : List (String × String) :=
  (files.filter (fun f => strEnds f ".m3u8" || strEnds f ".ts")).map
    (fun f => (keyPre ++ f,
      if strEnds f ".m3u8" then "application/vnd.apple.mpegurl" else "video/mp2t"))

/-- Externally visible actions of one variant pipeline run. -/
inductive RAction where
  | download
  | prepare
  | transcode
  | put (key ct : String)
deriving DecidableEq, Repr

/-- Environment of one variant pipeline run: the created temp directory
name and the outcomes of the fallible external steps. -/
structure VarEnv where
  tempName : String
  downloadRes : Except String Unit
  prepRes1 : Except String Unit
  prepRes2 : Except String Unit
  ffmpegRes1 : Except String Unit
  ffmpegRes2 : Except String Unit
  ffmpegFiles1 : List String
  ffmpegFiles2 : List String
  uploadRes : String → Except String Unit

/-- Recursive forced removal of a directory, modelling fs.rm with the
recursive and force options. -/
def rmRecursive (fs : List String) (dir : String) : List String :=
  fs.filter (fun p => !(p == dir || strStarts p (dir ++ "/")))

/-- Extraction of the file name of a path directly under a directory. -/
def fileNameIn (dir p : String) : Option String :=
  if strStarts p (dir ++ "/") then some (String.mk (p.data.drop (dir.data.length + 1)))
  else none

/-- Directory listing, modelling fs.readdir. -/
def filesIn (fs : List String) (dir : String) : List String :=
  fs.filterMap (fileNameIn dir)

/-- Result record returned by processVariant for a successful variant. -/
structure VariantResult where
  index : Int
  title : String
  cover : Option String
  fullUrl : Option String
  previewR2Path : String
deriving DecidableEq, Repr

/-- First upload failure among the scheduled uploads, modelling the
rejection of the awaited Promise.all. -/
def firstUploadErr (up : String → Except String Unit) : List (String × String) → Except String Unit
  | [] => .ok ()
  | k :: ks =>
    match up k.1 with
    | .error e => .error e
    | .ok _ => firstUploadErr up ks

/-- The upload-and-result phase of processVariant: list the temp
directory, upload the playlist and segment files, and build the variant
result. -/
def uploadPhase (env : VarEnv) (variantTaskId : String) (v : Variant) (tempDir : String)
    (acts : List RAction) (fs : List String) :
    Except String VariantResult × List RAction × List String :=
  let names := filesIn fs tempDir
  let keys := uploadFilesToR2 names ("previews/" ++ variantTaskId ++ "/")
  let acts2 := acts ++ keys.map (fun k => RAction.put k.1 k.2)
  match firstUploadErr env.uploadRes keys with
  | .error e => (.error e, acts2, fs)
  | .ok _ =>
    (.ok { index := v.index, title := v.title, cover := v.imageUrl, fullUrl := v.audioUrl,
           previewR2Path := "previews/" ++ variantTaskId ++ "/demo.m3u8" }, acts2, fs)

/-- One attempt of hlsToTrimmedHls: prepare the local playlist, then
transcode; on success the temp directory gains source.m3u8 and the
transcoder outputs. -/
def hlsAttempt (prep ff : Except String Unit) (files : List String) (tempDir : String)
    (fs : List String) : Except String Unit × List RAction × List String :=
  match prep with
  | .error e => (.error e, [.prepare], fs)
  | .ok _ =>
    let fs2 := fs ++ [tempDir ++ "/source.m3u8"]
    match ff with
    | .error e => (.error ("FFmpeg HLS error: " ++ e), [.prepare, .transcode], fs2)
    | .ok _ => (.ok (), [.prepare, .transcode], fs2 ++ files.map (fun f => tempDir ++ "/" ++ f))

/-- The function hlsToTrimmedHls of the source: one retry of the whole
attempt after a failure. -/
def hlsToTrimmedHls (env : VarEnv) (tempDir : String) (fs : List String) :
    Except String Unit × List RAction × List String :=
  let a1 := hlsAttempt env.prepRes1 env.ffmpegRes1 env.ffmpegFiles1 tempDir fs
  match a1.1 with
  | .ok u => (.ok u, a1.2.1, a1.2.2)
  | .error _ =>
    let a2 := hlsAttempt env.prepRes2 env.ffmpegRes2 env.ffmpegFiles2 tempDir a1.2.2
    (a2.1, a1.2.1 ++ a2.2.1, a2.2.2)

/-- The audio branch of processVariant, mp3ToTrimmedHls: download the
source file, then transcode it. -/
def mp3ToTrimmedHls (env : VarEnv) (tempDir : String) (fs : List String) :
    Except String Unit × List RAction × List String :=
  match env.downloadRes with
  | .error e => (.error e, [.download], fs)
  | .ok _ =>
    let fs2 := fs ++ [tempDir ++ "/original.mp3"]
    match env.ffmpegRes1 with
    | .error e => (.error ("FFmpeg error (MP3->HLS): " ++ e), [.download, .transcode], fs2)
    | .ok _ => (.ok (), [.download, .transcode], fs2 ++ env.ffmpegFiles1.map (fun f => tempDir ++ "/" ++ f))

/-- The function processVariant of the source: create the temp
directory, run the audio or stream branch, upload, and remove the temp
directory on every exit path via the finally block. -/
def processVariant (env : VarEnv) (internalTaskId : String) (v : Variant) (fs0 : List String) :
    Except String VariantResult × List RAction × List String :=
  let variantTaskId := internalTaskId ++ "-" ++ toString v.index
  let tempDir := env.tempName
  let fs1 := fs0 ++ [tempDir]
  let body : Except String VariantResult × List RAction × List String :=
    if v.audioUrl.isNone && v.streamUrl.isNone then
      (.error "Invalid URL: both audioUrl and streamUrl are missing.", [], fs1)
    else if v.audioUrl.isSome then
      let m := mp3ToTrimmedHls env tempDir fs1
      match m.1 with
      | .error e => (.error e, m.2.1, m.2.2)
      | .ok _ => uploadPhase env variantTaskId v tempDir m.2.1 m.2.2
    else
      let h := hlsToTrimmedHls env tempDir fs1
      match h.1 with
      | .error e => (.error e, h.2.1, h.2.2)
      | .ok _ => uploadPhase env variantTaskId v tempDir h.2.1 h.2.2
  (body.1, body.2.1, rmRecursive body.2.2 tempDir)

/-- The function processVariantSafe of the source: reject a variant with
neither URL before any step of processVariant runs. -/
def processVariantSafe (env : VarEnv) (internalTaskId : String) (v : Variant) (fs0 : List String) :
    Except String VariantResult × List RAction × List String :=
  if !hasUrlB v then (.error "Variant missing audioUrl/streamUrl", [], fs0)
  else processVariant env internalTaskId v fs0

/-- Settled outcome of one scheduled variant, as observed through
Promise.allSettled. -/
inductive SettledR where
  | fulfilled (v : VariantResult)
  | rejected (msg : String)
deriving DecidableEq, Repr

/-- Per-index error record of the failure callback body. -/
structure ErrEntry where
  index : Nat
  error : String
deriving DecidableEq, Repr

/-- Outbound callback body. -/
inductive CallbackMsg where
  | conversionFailed (customerId taskId : String) (errs : List ErrEntry)
  | conversionComplete (customerId taskId : String) (finalItems : List VariantResult)
deriving DecidableEq, Repr

/-- Settling of one variant: a thrown error becomes a rejected record
instead of propagating. -/
def runSettled (step : Variant → Except String VariantResult) (v : Variant) : SettledR :=
  match step v with
  | .ok r => .fulfilled r
  | .error m => .rejected m

/-- The awaited Promise.allSettled over the scheduled variants, with the
per-variant pipeline abstracted into step. -/
def batchResults (step : Variant → Except String VariantResult) (vars : List Variant) :
    List SettledR :=
  vars.map (runSettled step)

/-- The fulfilled values in order, as computed into finalItems. -/
def fulfilledOf (results : List SettledR) : List VariantResult :=
  results.filterMap (fun r =>
    match r with
    | .fulfilled v => some v
    | .rejected _ => none)

/-- The per-index error list of the failure callback: rejected entries
indexed by position, fulfilled positions dropped. -/
def errsOf (results : List SettledR) : List ErrEntry :=
  results.enum.filterMap (fun p =>
    match p.2 with
    | .rejected m => some { index := p.1, error := m }
    | .fulfilled _ => none)

/-- The aggregation of the request handler: a failure callback exactly
when no variant fulfilled, else a completion callback with the fulfilled
results. -/
def aggregateBatch (customerId taskId : String) (results : List SettledR) : CallbackMsg :=
  let finalItems := fulfilledOf results
  if finalItems.isEmpty then .conversionFailed customerId taskId (errsOf results)
  else .conversionComplete customerId taskId finalItems

/-- The batch handler after normalization: settle every variant and
aggregate. -/
def handleCreatePreview (step : Variant → Except String VariantResult)
    (customerId taskId : String) (vars : List Variant) : CallbackMsg :=
  aggregateBatch customerId taskId (batchResults step vars)

/-- The function safePost of the source: delivery failure is swallowed;
the returned flag models only the log line. -/
def safePost (deliver : CallbackMsg → Except String Unit) (cb : CallbackMsg) : Bool :=
  match deliver cb with
  | .ok _ => true
  | .error _ => false

/-- The tail of the request handler: compute the callback for the batch
and post it through safePost. -/
def runCreatePreview (step : Variant → Except String VariantResult)
    (deliver : CallbackMsg → Except String Unit)
    (customerId taskId : String) (vars : List Variant) : CallbackMsg × Bool :=
  let cb := handleCreatePreview step customerId taskId vars
  (cb, safePost deliver cb)

/-- Sample normalized variant carrying neither URL, used by witnesses. -/
def sampleVariantNoUrl : Variant :=
  { audioUrl := none, streamUrl := none, imageUrl := none, title := "t", index := 0 }

/-- Sample stream-sourced variant, used by witnesses. -/
def sampleVariantStream : Variant :=
  { audioUrl := none, streamUrl := some "https://h.com/x.m3u8", imageUrl := none,
    title := "s", index := 1 }

/-- Sample audio-sourced variant, used by witnesses. -/
def sampleVariantAudio : Variant :=
  { audioUrl := some "https://h.com/a.mp3", streamUrl := none, imageUrl := none,
    title := "a", index := 0 }

/-- Sample pipeline environment in which every external step succeeds,
used by witnesses. -/
def sampleEnvOk : VarEnv :=
  { tempName := "/tmp/song-T9-1-abc", downloadRes := .ok (), prepRes1 := .ok (),
    prepRes2 := .ok (), ffmpegRes1 := .ok (), ffmpegRes2 := .ok (),
    ffmpegFiles1 := ["demo.m3u8", "segment000.ts"], ffmpegFiles2 := [],
    uploadRes := fun _ => .ok () }

/- ===================== General helper lemmas ===================== -/

theorem filter_not_filter {α : Type} (q : α → Bool) (l : List α) :
    (l.filter (fun x => !(q x))).filter q = [] := by
  induction l with
  | nil => rfl
  | cons a t ih =>
    by_cases h : q a
    · simp [List.filter_cons, h, ih]
    · simp only [Bool.not_eq_true] at h
      simp [List.filter_cons, h, ih]

/- ===================== Character lemmas ===================== -/

theorem charOfNat_toNat {n : Nat} (h1 : 97 ≤ n) (h2 : n ≤ 122) : (Char.ofNat n).toNat = n := by
  unfold Char.ofNat
  rw [dif_pos (Or.inl (by omega))]
  simp only [Char.ofNatAux, Char.toNat, UInt32.toNat, UInt32.toBitVec, BitVec.toNat_ofNatLt]

theorem lowerChar_toNat_of_upper {c : Char} (h : 65 ≤ c.toNat ∧ c.toNat ≤ 90) :
    (lowerChar c).toNat = c.toNat + 32 := by
  unfold lowerChar
  rw [if_pos h]
  exact charOfNat_toNat (by omega) (by omega)

theorem lowerChar_eq_self {c : Char} (h : ¬(65 ≤ c.toNat ∧ c.toNat ≤ 90)) : lowerChar c = c := by
  unfold lowerChar
  rw [if_neg h]

theorem lowerChar_idem (c : Char) : lowerChar (lowerChar c) = lowerChar c := by
  by_cases h : 65 ≤ c.toNat ∧ c.toNat ≤ 90
  · have ht := lowerChar_toNat_of_upper h
    exact lowerChar_eq_self (by omega)
  · rw [lowerChar_eq_self h, lowerChar_eq_self h]

theorem lowerChar_eq_nonletter {c d : Char} (h : lowerChar c = d)
    (hd : ¬(97 ≤ d.toNat ∧ d.toNat ≤ 122)) : c = d := by
  by_cases hc : 65 ≤ c.toNat ∧ c.toNat ≤ 90
  · exact absurd (h ▸ lowerChar_toNat_of_upper hc) (by omega)
  · rw [← h, lowerChar_eq_self hc]

theorem lowerC_idem (l : Chars) : lowerC (lowerC l) = lowerC l := by
  unfold lowerC
  rw [List.map_map]
  exact List.map_congr_left (fun c _ => lowerChar_idem c)

theorem lowerC_eq_self {l : Chars} (h : ∀ c ∈ l, lowerChar c = c) : lowerC l = l := by
  unfold lowerC
  exact List.map_congr_left h |>.trans (List.map_id l)

theorem lowerChar_ne_of_ne {c d : Char} (hd1 : ¬(97 ≤ d.toNat ∧ d.toNat ≤ 122))
    (h : c ≠ d) : lowerChar c ≠ d := by
  intro hcon
  exact h (lowerChar_eq_nonletter hcon hd1)

/- ===================== Trim and cleanse lemmas ===================== -/

theorem dropWhile_head_false {p : Char → Bool} {l : Chars} {c : Char}
    (h : (l.dropWhile p).head? = some c) : p c = false := by
  induction l with
  | nil => simp [List.dropWhile] at h
  | cons a t ih =>
    rw [List.dropWhile_cons] at h
    by_cases hp : p a
    · rw [if_pos hp] at h
      exact ih h
    · rw [if_neg hp] at h
      simp only [List.head?_cons, Option.some.injEq] at h
      rw [← h]
      exact Bool.not_eq_true _ |>.mp hp

theorem dropWhile_eq_self_of_head {p : Char → Bool} {l : Chars}
    (h : ∀ c, l.head? = some c → p c = false) : l.dropWhile p = l := by
  cases l with
  | nil => rfl
  | cons a t =>
    rw [List.dropWhile_cons, if_neg]
    rw [h a rfl]
    simp

theorem dropWhile_getLast_of_ne_nil {p : Char → Bool} {l : Chars}
    (h : l.dropWhile p ≠ []) : (l.dropWhile p).getLast? = l.getLast? := by
  induction l with
  | nil => simp [List.dropWhile] at h
  | cons a t ih =>
    rw [List.dropWhile_cons]
    by_cases hp : p a
    · rw [List.dropWhile_cons, if_pos hp] at h
      rw [if_pos hp, ih h]
      cases t with
      | nil => exact absurd rfl h
      | cons b u => rw [List.getLast?_cons_cons]
    · rw [if_neg hp]

theorem trimC_head_not_ws {l : Chars} {c : Char} (h : (trimC l).head? = some c) :
    isWsChar c = false := by
  unfold trimC at h
  rw [List.head?_reverse] at h
  have hne : (l.dropWhile isWsChar).reverse.dropWhile isWsChar ≠ [] := by
    intro hnil
    rw [hnil] at h
    simp at h
  rw [dropWhile_getLast_of_ne_nil hne, List.getLast?_reverse] at h
  exact dropWhile_head_false ((dropWhile_eq_self_of_head (fun d hd =>
    dropWhile_head_false hd)) ▸ h)

theorem trimC_last_not_ws {l : Chars} {c : Char} (h : (trimC l).getLast? = some c) :
    isWsChar c = false := by
  unfold trimC at h
  rw [List.getLast?_reverse] at h
  exact dropWhile_head_false h

theorem trimC_eq_self {l : Chars} (hh : ∀ c, l.head? = some c → isWsChar c = false)
    (hl : ∀ c, l.getLast? = some c → isWsChar c = false) : trimC l = l := by
  unfold trimC
  rw [dropWhile_eq_self_of_head hh]
  rw [dropWhile_eq_self_of_head (fun c hc => hl c (by rwa [List.head?_reverse] at hc))]
  exact List.reverse_reverse l

theorem trimC_idem (l : Chars) : trimC (trimC l) = trimC l :=
  trimC_eq_self (fun _ h => trimC_head_not_ws h) (fun _ h => trimC_last_not_ws h)

theorem filter_head_of_pos {p : Char → Bool} {l : Chars} {c : Char}
    (h : l.head? = some c) (hp : p c = true) : (l.filter p).head? = some c := by
  cases l with
  | nil => simp at h
  | cons a t =>
    simp only [List.head?_cons, Option.some.injEq] at h
    rw [← h] at hp
    rw [List.filter_cons, if_pos hp]
    simp [h]

theorem filter_getLast_of_pos {p : Char → Bool} {l : Chars} {c : Char}
    (h : l.getLast? = some c) (hp : p c = true) : (l.filter p).getLast? = some c := by
  rw [← List.head?_reverse] at h
  rw [← List.head?_reverse, ← List.filter_reverse]
  exact filter_head_of_pos h hp

theorem stripCtl_head {l : Chars} {c : Char} (h : l.head? = some c)
    (hc : isWsChar c = false) : (stripCtl l).head? = some c := by
  unfold stripCtl
  refine filter_head_of_pos h ?_
  simp only [isWsChar, Bool.or_eq_false_iff] at hc
  simp [hc.1.1.2, hc.1.2, hc.2]

theorem stripCtl_getLast {l : Chars} {c : Char} (h : l.getLast? = some c)
    (hc : isWsChar c = false) : (stripCtl l).getLast? = some c := by
  unfold stripCtl
  refine filter_getLast_of_pos h ?_
  simp only [isWsChar, Bool.or_eq_false_iff] at hc
  simp [hc.1.1.2, hc.1.2, hc.2]

theorem stripCtl_idem (l : Chars) : stripCtl (stripCtl l) = stripCtl l := by
  unfold stripCtl
  rw [List.filter_filter]
  exact List.filter_congr (fun c _ => by cases hc : (c == '\t' || c == '\n' || c == '\r') <;>
    simp [hc])

theorem cleanse_head_not_ws {l : Chars} {c : Char} (h : (cleanse l).head? = some c) :
    isWsChar c = false := by
  cases hy : trimC l with
  | nil =>
    unfold cleanse at h
    rw [hy] at h
    simp [stripCtl] at h
  | cons b t =>
    have hb : isWsChar b = false := @trimC_head_not_ws l b (by rw [hy]; rfl)
    have hsh : (stripCtl (trimC l)).head? = some b := stripCtl_head (by rw [hy]; rfl) hb
    unfold cleanse at h
    rw [hsh] at h
    injection h with h
    rw [← h]
    exact hb

theorem cleanse_last_not_ws {l : Chars} {c : Char} (h : (cleanse l).getLast? = some c) :
    isWsChar c = false := by
  cases hy : (trimC l).getLast? with
  | none =>
    unfold cleanse at h
    rw [List.getLast?_eq_none_iff.mp hy] at h
    simp [stripCtl] at h
  | some b =>
    have hb : isWsChar b = false := trimC_last_not_ws hy
    have hsl : (stripCtl (trimC l)).getLast? = some b := stripCtl_getLast hy hb
    unfold cleanse at h
    rw [hsl] at h
    injection h with h
    rw [← h]
    exact hb

theorem cleanse_idem (l : Chars) : cleanse (cleanse l) = cleanse l := by
  show stripCtl (trimC (cleanse l)) = cleanse l
  rw [trimC_eq_self (fun c hc => cleanse_head_not_ws hc) (fun c hc => cleanse_last_not_ws hc)]
  show stripCtl (stripCtl (trimC l)) = stripCtl (trimC l)
  exact stripCtl_idem _

theorem cleanse_no_ctl {l : Chars} {c : Char} (h : c ∈ cleanse l) :
    c ≠ '\t' ∧ c ≠ '\n' ∧ c ≠ '\r' := by
  unfold cleanse stripCtl at h
  have := (List.mem_filter.mp h).2
  simp only [Bool.not_eq_true', Bool.or_eq_false_iff, beq_eq_false_iff_ne] at this
  exact ⟨this.1.1, this.1.2, this.2⟩

theorem cleanse_subset {l : Chars} {c : Char} (h : c ∈ cleanse l) : c ∈ l := by
  unfold cleanse stripCtl at h
  have h1 := (List.mem_filter.mp h).1
  unfold trimC at h1
  rw [List.mem_reverse] at h1
  have h2 := (show List.Sublist ((l.dropWhile isWsChar).reverse.dropWhile isWsChar)
      ((l.dropWhile isWsChar).reverse) from List.dropWhile_sublist _).subset h1
  rw [List.mem_reverse] at h2
  exact (show List.Sublist (l.dropWhile isWsChar) l from List.dropWhile_sublist _).subset h2

theorem mem_of_getLast_eq {α : Type} {l : List α} {a : α} (h : l.getLast? = some a) : a ∈ l := by
  rw [← List.head?_reverse] at h
  refine List.mem_reverse.mp (List.mem_of_mem_head? ?_)
  rw [h]
  rfl

theorem cleanse_eq_self {l : Chars} (h : AllNotWs l) : cleanse l = l := by
  unfold cleanse
  rw [trimC_eq_self (fun c hc => h c (by
      cases l with
      | nil => simp at hc
      | cons a t => simp only [List.head?_cons, Option.some.injEq] at hc; rw [← hc]; simp))
    (fun c hc => h c (mem_of_getLast_eq hc))]
  unfold stripCtl
  refine List.filter_eq_self.mpr (fun c hc => ?_)
  have hw := h c hc
  simp only [isWsChar, Bool.or_eq_false_iff, beq_eq_false_iff_ne] at hw
  simp [hw.1.1.2, hw.1.2, hw.2]

/- ===================== Split and join lemmas ===================== -/

theorem splitNl_cons_eq (c : Char) (rest : Chars) :
    splitNl (c :: rest) =
      if c = '\n' then [] :: splitNl rest
      else
        match splitNl rest with
        | [] => [[c]]
        | l :: ls => (c :: l) :: ls := by
  rw [splitNl]

theorem splitNl_ne_nil (l : Chars) : splitNl l ≠ [] := by
  induction l with
  | nil => simp [splitNl]
  | cons c t ih =>
    rw [splitNl_cons_eq]
    by_cases h : c = '\n'
    · simp [h]
    · rw [if_neg h]
      cases hs : splitNl t with
      | nil => simp
      | cons a b => simp

theorem splitNl_no_nl {l : Chars} (h : '\n' ∉ l) : splitNl l = [l] := by
  induction l with
  | nil => rfl
  | cons c t ih =>
    rw [splitNl_cons_eq, if_neg (fun hc => h (by rw [← hc]; exact List.mem_cons_self c t))]
    rw [ih (fun hm => h (List.mem_cons_of_mem c hm))]

theorem splitNl_append_nl {l r : Chars} (h : '\n' ∉ l) :
    splitNl (l ++ '\n' :: r) = l :: splitNl r := by
  induction l with
  | nil => simp [splitNl_cons_eq]
  | cons c t ih =>
    have hc : c ≠ '\n' := fun hc => h (by rw [← hc]; exact List.mem_cons_self c t)
    rw [List.cons_append, splitNl_cons_eq, if_neg hc,
      ih (fun hm => h (List.mem_cons_of_mem c hm))]

theorem splitNl_joinNl {ls : List Chars} (hne : ls ≠ []) (h : ∀ x ∈ ls, '\n' ∉ x) :
    splitNl (joinNl ls) = ls := by
  induction ls with
  | nil => exact absurd rfl hne
  | cons a t ih =>
    cases t with
    | nil => exact splitNl_no_nl (h a (List.mem_cons_self a []))
    | cons b u =>
      show splitNl (a ++ '\n' :: joinNl (b :: u)) = _
      rw [splitNl_append_nl (h a (List.mem_cons_self a _))]
      rw [ih (by simp) (fun x hx => h x (List.mem_cons_of_mem a hx))]

theorem stripCr_eq_self {l : Chars} (h : ∀ c, l.getLast? = some c → c ≠ '\r') :
    stripCr l = l := by
  unfold stripCr
  split
  · next heq => exact absurd rfl (h _ heq)
  · rfl

theorem splitLinesC_joinNl {ls : List Chars} (hne : ls ≠ []) (h : ∀ x ∈ ls, '\n' ∉ x) :
    splitLinesC (joinNl ls) = mapExceptLast stripCr ls := by
  unfold splitLinesC
  rw [splitNl_joinNl hne h]

theorem mapExceptLast_eq_self {f : Chars → Chars} :
    ∀ {ls : List Chars}, (∀ x ∈ ls, f x = x) → mapExceptLast f ls = ls := by
  intro ls
  induction ls with
  | nil =>
    intro h
    rfl
  | cons a t ih =>
    intro h
    cases t with
    | nil => rfl
    | cons b r =>
      show f a :: mapExceptLast f (b :: r) = a :: b :: r
      rw [h a (List.mem_cons_self a _), ih (fun x hx => h x (List.mem_cons_of_mem a hx))]

theorem mapExceptLast_length {f : Chars → Chars} :
    ∀ (ls : List Chars), (mapExceptLast f ls).length = ls.length := by
  intro ls
  induction ls with
  | nil => rfl
  | cons a t ih =>
    cases t with
    | nil => rfl
    | cons b r =>
      show (f a :: mapExceptLast f (b :: r)).length = (a :: b :: r).length
      simp only [List.length_cons, ih]

theorem mapExceptLast_ne_nil {f : Chars → Chars} {ls : List Chars} (h : ls ≠ []) :
    mapExceptLast f ls ≠ [] := by
  intro h0
  have hlen := congrArg List.length h0
  rw [mapExceptLast_length] at hlen
  exact h (List.length_eq_zero.mp (by simpa using hlen))

theorem mapExceptLast_mem {f : Chars → Chars} :
    ∀ {ls : List Chars} {x : Chars}, x ∈ mapExceptLast f ls →
      (∃ y ∈ ls, x = f y) ∨ x ∈ ls := by
  intro ls
  induction ls with
  | nil =>
    intro x h
    exact absurd h (by simp [mapExceptLast])
  | cons a t ih =>
    intro x h
    cases t with
    | nil =>
      rw [show mapExceptLast f [a] = [a] from rfl] at h
      exact Or.inr h
    | cons b r =>
      rw [show mapExceptLast f (a :: b :: r) = f a :: mapExceptLast f (b :: r) from rfl] at h
      rcases List.mem_cons.mp h with h1 | h1
      · exact Or.inl ⟨a, List.mem_cons_self a _, h1⟩
      · rcases ih h1 with ⟨y, hy, hxy⟩ | h2
        · exact Or.inl ⟨y, List.mem_cons_of_mem a hy, hxy⟩
        · exact Or.inr (List.mem_cons_of_mem a h2)

theorem countP_mapExceptLast {p : Chars → Bool} {f : Chars → Chars}
    (hp : ∀ x, p (f x) = p x) :
    ∀ (ls : List Chars), (mapExceptLast f ls).countP p = ls.countP p := by
  intro ls
  induction ls with
  | nil => rfl
  | cons a t ih =>
    cases t with
    | nil => rfl
    | cons b r =>
      show (f a :: mapExceptLast f (b :: r)).countP p = (a :: b :: r).countP p
      rw [List.countP_cons, List.countP_cons, ih, hp a]

theorem splitNl_mem_no_nl {t : Chars} : ∀ {y : Chars}, y ∈ splitNl t → '\n' ∉ y := by
  induction t with
  | nil =>
    intro y hy
    simp only [splitNl, List.mem_singleton] at hy
    subst hy
    simp
  | cons c r ih =>
    intro y hy
    rw [splitNl_cons_eq] at hy
    by_cases hc : c = '\n'
    · rw [if_pos hc] at hy
      rcases List.mem_cons.mp hy with h1 | h1
      · subst h1; simp
      · exact ih h1
    · rw [if_neg hc] at hy
      cases hs : splitNl r with
      | nil => exact absurd hs (splitNl_ne_nil r)
      | cons a b =>
        rw [hs] at hy
        rcases List.mem_cons.mp hy with h1 | h1
        · subst h1
          intro hm
          rcases List.mem_cons.mp hm with h2 | h2
          · exact hc h2.symm
          · exact ih (by rw [hs]; exact List.mem_cons_self a b) h2
        · exact ih (by rw [hs]; exact List.mem_cons_of_mem a h1)

theorem splitLinesC_mem_no_nl {t x : Chars} (h : x ∈ splitLinesC t) : '\n' ∉ x := by
  unfold splitLinesC at h
  rcases mapExceptLast_mem h with ⟨y, hy, rfl⟩ | h1
  · have hysplit : '\n' ∉ y := splitNl_mem_no_nl hy
    intro hm
    unfold stripCr at hm
    split at hm
    · exact hysplit ((List.dropLast_sublist y).subset hm)
    · exact hysplit hm
  · exact splitNl_mem_no_nl h1

theorem splitLinesC_ne_nil (t : Chars) : splitLinesC t ≠ [] := by
  unfold splitLinesC
  exact mapExceptLast_ne_nil (splitNl_ne_nil t)

/- ===================== takeWhile and dropWhile helpers ===================== -/

theorem takeWhile_append_all {p : Char → Bool} {a r : Chars} (h : ∀ c ∈ a, p c = true) :
    (a ++ r).takeWhile p = a ++ r.takeWhile p := by
  induction a with
  | nil => rfl
  | cons x t ih =>
    rw [List.cons_append, List.takeWhile_cons, if_pos (h x (List.mem_cons_self x t)),
      ih (fun c hc => h c (List.mem_cons_of_mem x hc)), List.cons_append]

theorem dropWhile_append_all {p : Char → Bool} {a r : Chars} (h : ∀ c ∈ a, p c = true) :
    (a ++ r).dropWhile p = r.dropWhile p := by
  induction a with
  | nil => rfl
  | cons x t ih =>
    rw [List.cons_append, List.dropWhile_cons, if_pos (h x (List.mem_cons_self x t)),
      ih (fun c hc => h c (List.mem_cons_of_mem x hc))]

theorem takeWhile_cons_false {p : Char → Bool} {x : Char} {r : Chars} (h : p x = false) :
    (x :: r).takeWhile p = [] := by
  rw [List.takeWhile_cons, if_neg (by simp [h])]

theorem dropWhile_cons_false {p : Char → Bool} {x : Char} {r : Chars} (h : p x = false) :
    (x :: r).dropWhile p = x :: r := by
  rw [List.dropWhile_cons, if_neg (by simp [h])]

/- ===================== splitSlash and joinSlash ===================== -/

theorem splitSlash_cons_eq (c : Char) (rest : Chars) :
    splitSlash (c :: rest) =
      if c = '/' then [] :: splitSlash rest
      else
        match splitSlash rest with
        | [] => [[c]]
        | l :: ls => (c :: l) :: ls := by
  rw [splitSlash]

theorem splitSlash_ne_nil (l : Chars) : splitSlash l ≠ [] := by
  induction l with
  | nil => simp [splitSlash]
  | cons c t ih =>
    rw [splitSlash_cons_eq]
    by_cases h : c = '/'
    · simp [h]
    · rw [if_neg h]
      cases hs : splitSlash t with
      | nil => simp
      | cons a b => simp

theorem splitSlash_no_slash {l : Chars} (h : '/' ∉ l) : splitSlash l = [l] := by
  induction l with
  | nil => rfl
  | cons c t ih =>
    rw [splitSlash_cons_eq, if_neg (fun hc => h (by rw [← hc]; exact List.mem_cons_self c t))]
    rw [ih (fun hm => h (List.mem_cons_of_mem c hm))]

theorem splitSlash_append_slash {l r : Chars} (h : '/' ∉ l) :
    splitSlash (l ++ '/' :: r) = l :: splitSlash r := by
  induction l with
  | nil => simp [splitSlash_cons_eq]
  | cons c t ih =>
    have hc : c ≠ '/' := fun hc => h (by rw [← hc]; exact List.mem_cons_self c t)
    rw [List.cons_append, splitSlash_cons_eq, if_neg hc,
      ih (fun hm => h (List.mem_cons_of_mem c hm))]

theorem splitSlash_joinSlash {segs : List Chars} (hne : segs ≠ [])
    (h : ∀ s ∈ segs, '/' ∉ s) : splitSlash (joinSlash segs) = segs := by
  induction segs with
  | nil => exact absurd rfl hne
  | cons a t ih =>
    cases t with
    | nil => exact splitSlash_no_slash (h a (List.mem_cons_self a []))
    | cons b u =>
      show splitSlash (a ++ '/' :: joinSlash (b :: u)) = _
      rw [splitSlash_append_slash (h a (List.mem_cons_self a _))]
      rw [ih (by simp) (fun x hx => h x (List.mem_cons_of_mem a hx))]

theorem splitSlash_mem_no_slash {t : Chars} : ∀ {y : Chars}, y ∈ splitSlash t → '/' ∉ y := by
  induction t with
  | nil =>
    intro y hy
    simp only [splitSlash, List.mem_singleton] at hy
    subst hy
    simp
  | cons c r ih =>
    intro y hy
    rw [splitSlash_cons_eq] at hy
    by_cases hc : c = '/'
    · rw [if_pos hc] at hy
      rcases List.mem_cons.mp hy with h1 | h1
      · subst h1; simp
      · exact ih h1
    · rw [if_neg hc] at hy
      cases hs : splitSlash r with
      | nil => exact absurd hs (splitSlash_ne_nil r)
      | cons a b =>
        rw [hs] at hy
        rcases List.mem_cons.mp hy with h1 | h1
        · subst h1
          intro hm
          rcases List.mem_cons.mp hm with h2 | h2
          · exact hc h2.symm
          · exact ih (by rw [hs]; exact List.mem_cons_self a b) h2
        · exact ih (by rw [hs]; exact List.mem_cons_of_mem a h1)

theorem splitSlash_mem_subset {t y : Chars} (hy : y ∈ splitSlash t) {c : Char} (hc : c ∈ y) :
    c ∈ t := by
  induction t generalizing y with
  | nil =>
    simp only [splitSlash, List.mem_singleton] at hy
    subst hy
    simp at hc
  | cons d r ih =>
    rw [splitSlash_cons_eq] at hy
    by_cases hd : d = '/'
    · rw [if_pos hd] at hy
      rcases List.mem_cons.mp hy with h1 | h1
      · subst h1; simp at hc
      · exact List.mem_cons_of_mem d (ih h1 hc)
    · rw [if_neg hd] at hy
      cases hs : splitSlash r with
      | nil => exact absurd hs (splitSlash_ne_nil r)
      | cons a b =>
        rw [hs] at hy
        rcases List.mem_cons.mp hy with h1 | h1
        · subst h1
          rcases List.mem_cons.mp hc with h2 | h2
          · subst h2; exact List.mem_cons_self c r
          · exact List.mem_cons_of_mem d (ih
              (by rw [hs]; exact List.mem_cons_self a b) h2)
        · exact List.mem_cons_of_mem d (ih (by rw [hs]; exact List.mem_cons_of_mem a h1) hc)

theorem joinSlash_mem {segs : List Chars} {c : Char} (h : c ∈ joinSlash segs) :
    c = '/' ∨ ∃ s ∈ segs, c ∈ s := by
  induction segs with
  | nil => simp [joinSlash] at h
  | cons a t ih =>
    cases t with
    | nil =>
      refine Or.inr ⟨a, List.mem_cons_self a [], ?_⟩
      simpa [joinSlash] using h
    | cons b u =>
      have hshape : joinSlash (a :: b :: u) = a ++ '/' :: joinSlash (b :: u) := rfl
      rw [hshape] at h
      rcases List.mem_append.mp h with h1 | h1
      · exact Or.inr ⟨a, List.mem_cons_self a _, h1⟩
      · rcases List.mem_cons.mp h1 with h2 | h2
        · exact Or.inl h2
        · rcases ih h2 with h3 | ⟨s, hs, hcs⟩
          · exact Or.inl h3
          · exact Or.inr ⟨s, List.mem_cons_of_mem a hs, hcs⟩

/- ===================== encode lemmas ===================== -/

theorem encChar_eq_self {c : Char} (h : c ≠ ' ' ∧ c ≠ '"' ∧ c ≠ '<' ∧ c ≠ '>') :
    encChar c = [c] := by
  unfold encChar
  rw [if_neg h.1, if_neg h.2.1, if_neg h.2.2.1, if_neg h.2.2.2]

theorem encodeC_eq_self {s : Chars} (h : ∀ c ∈ s, c ≠ ' ' ∧ c ≠ '"' ∧ c ≠ '<' ∧ c ≠ '>') :
    encodeC s = s := by
  induction s with
  | nil => rfl
  | cons c t ih =>
    unfold encodeC at *
    rw [List.flatMap_cons, encChar_eq_self (h c (List.mem_cons_self c t)),
      ih (fun d hd => h d (List.mem_cons_of_mem c hd))]
    rfl

theorem encChar_mem_not {c d : Char} (h : d ∈ encChar c) :
    (d = c ∧ c ≠ ' ' ∧ c ≠ '"' ∧ c ≠ '<' ∧ c ≠ '>') ∨
    (d ≠ ' ' ∧ d ≠ '"' ∧ d ≠ '<' ∧ d ≠ '>' ∧ d ≠ '/' ∧ d ≠ '?' ∧ d ≠ '#'
      ∧ d ≠ '\t' ∧ d ≠ '\n' ∧ d ≠ '\r') := by
  unfold encChar at h
  by_cases h1 : c = ' '
  · rw [if_pos h1] at h
    simp only [List.mem_cons, List.mem_singleton, List.not_mem_nil, or_false] at h
    right
    rcases h with h | h | h <;> subst h <;> decide
  · rw [if_neg h1] at h
    by_cases h2 : c = '"'
    · rw [if_pos h2] at h
      simp only [List.mem_cons, List.mem_singleton, List.not_mem_nil, or_false] at h
      right
      rcases h with h | h | h <;> subst h <;> decide
    · rw [if_neg h2] at h
      by_cases h3 : c = '<'
      · rw [if_pos h3] at h
        simp only [List.mem_cons, List.mem_singleton, List.not_mem_nil, or_false] at h
        right
        rcases h with h | h | h <;> subst h <;> decide
      · rw [if_neg h3] at h
        by_cases h4 : c = '>'
        · rw [if_pos h4] at h
          simp only [List.mem_cons, List.mem_singleton, List.not_mem_nil, or_false] at h
          right
          rcases h with h | h | h <;> subst h <;> decide
        · rw [if_neg h4] at h
          left
          exact ⟨by simpa using h, h1, h2, h3, h4⟩

theorem encodeC_mem {s : Chars} {d : Char} (h : d ∈ encodeC s) : ∃ c ∈ s, d ∈ encChar c := by
  unfold encodeC at h
  exact List.mem_flatMap.mp h

theorem encodeTailC_mem {t : Chars} {d : Char} (h : d ∈ encodeTailC t) :
    ∃ c ∈ t, d ∈ (if c = '?' || c = '#' then [c] else encChar c) := by
  unfold encodeTailC at h
  exact List.mem_flatMap.mp h

theorem encodeTailC_eq_self {t : Chars}
    (h : ∀ c ∈ t, c ≠ ' ' ∧ c ≠ '"' ∧ c ≠ '<' ∧ c ≠ '>') : encodeTailC t = t := by
  induction t with
  | nil => rfl
  | cons c r ih =>
    unfold encodeTailC at *
    rw [List.flatMap_cons, ih (fun d hd => h d (List.mem_cons_of_mem c hd))]
    by_cases hc : (c = '?' || c = '#')
    · rw [if_pos hc]
      rfl
    · rw [if_neg hc, encChar_eq_self (h c (List.mem_cons_self c r))]
      rfl

theorem encodeTailC_head {t : Chars} {c : Char} (h : t.head? = some c)
    (hc : c = '?' ∨ c = '#') : (encodeTailC t).head? = some c := by
  cases t with
  | nil => simp at h
  | cons a r =>
    simp only [List.head?_cons, Option.some.injEq] at h
    subst h
    unfold encodeTailC
    rw [List.flatMap_cons]
    have hif : (if a = '?' || a = '#' then [a] else encChar a) = [a] := by
      rcases hc with h1 | h1 <;> rw [if_pos (by simp [h1])]
    rw [hif]
    rfl

/- ===================== dot-segment removal lemmas ===================== -/

theorem rds_foldl_all {l : List Chars} (h : NoDots l) :
    ∀ acc, l.foldl rdsStep acc = acc ++ l := by
  induction l with
  | nil => intro acc; simp
  | cons s t ih =>
    intro acc
    have hs := h s (List.mem_cons_self s t)
    show List.foldl rdsStep (rdsStep acc s) t = _
    unfold rdsStep
    rw [hs.1, hs.2]
    rw [if_neg (by decide), if_neg (by decide)]
    have := ih (fun x hx => h x (List.mem_cons_of_mem s hx)) (acc ++ [s])
    unfold rdsStep at this
    rw [this]
    simp

theorem removeDotSegments_eq_self {l : List Chars} (h : NoDots l) :
    removeDotSegments l = l := by
  cases hl : l.getLast? with
  | none =>
    have : l = [] := List.getLast?_eq_none_iff.mp hl
    subst this
    rfl
  | some s =>
    have hs := h s (mem_of_getLast_eq hl)
    unfold removeDotSegments
    simp only [hl]
    rw [if_neg (by rw [hs.1, hs.2]; simp)]
    exact (rds_foldl_all h []).trans (by simp)

theorem rds_foldl_mem {l : List Chars} {x : Chars} :
    ∀ {acc}, x ∈ l.foldl rdsStep acc → x ∈ acc ∨ x ∈ l := by
  induction l with
  | nil => intro acc h; exact Or.inl h
  | cons s t ih =>
    intro acc h
    rcases @ih (rdsStep acc s) h with h1 | h1
    · unfold rdsStep at h1
      split at h1
      · exact Or.inl h1
      · split at h1
        · exact Or.inl ((List.dropLast_sublist acc).subset h1)
        · rcases List.mem_append.mp h1 with h2 | h2
          · exact Or.inl h2
          · exact Or.inr (by rw [List.mem_singleton.mp h2]; exact List.mem_cons_self s t)
    · exact Or.inr (List.mem_cons_of_mem s h1)

theorem removeDotSegments_mem {l : List Chars} {x : Chars} (h : x ∈ removeDotSegments l) :
    x ∈ l ∨ x = [] := by
  have hcore : x ∈ l.foldl rdsStep [] → x ∈ l ∨ x = [] := by
    intro hx
    rcases rds_foldl_mem hx with h1 | h1
    · simp at h1
    · exact Or.inl h1
  unfold removeDotSegments at h
  cases hl : l.getLast? with
  | none =>
    simp only [hl] at h
    exact hcore h
  | some s =>
    simp only [hl] at h
    by_cases hd : (isDotSeg s || isDotDotSeg s)
    · rw [if_pos hd] at h
      rcases List.mem_append.mp h with h1 | h1
      · exact hcore h1
      · exact Or.inr (List.mem_singleton.mp h1)
    · rw [if_neg hd] at h
      exact hcore h

theorem rds_foldl_noDots {l : List Chars} :
    ∀ {acc}, NoDots acc → NoDots (l.foldl rdsStep acc) := by
  induction l with
  | nil => intro acc h; exact h
  | cons s t ih =>
    intro acc h
    refine @ih (rdsStep acc s) ?_
    unfold rdsStep
    split
    · exact h
    · split
      · exact fun x hx => h x ((List.dropLast_sublist acc).subset hx)
      · next h1 h2 =>
        intro x hx
        rcases List.mem_append.mp hx with h3 | h3
        · exact h x h3
        · rw [List.mem_singleton.mp h3]
          exact ⟨Bool.not_eq_true _ |>.mp h1, Bool.not_eq_true _ |>.mp h2⟩

theorem removeDotSegments_noDots (l : List Chars) : NoDots (removeDotSegments l) := by
  have hcore : NoDots (l.foldl rdsStep []) := rds_foldl_noDots (by intro x hx; simp at hx)
  unfold removeDotSegments
  cases hl : l.getLast? with
  | none => exact hcore
  | some s =>
    simp only []
    by_cases hd : (isDotSeg s || isDotDotSeg s)
    · rw [if_pos hd]
      intro x hx
      rcases List.mem_append.mp hx with h1 | h1
      · exact hcore x h1
      · rw [List.mem_singleton.mp h1]
        exact ⟨by decide, by decide⟩
    · rw [if_neg hd]
      exact hcore

theorem removeDotSegments_ne_nil {l : List Chars} (h : l ≠ []) :
    removeDotSegments l ≠ [] := by
  rcases List.eq_nil_or_concat l with h1 | ⟨L, b, hLb⟩
  · exact absurd h1 h
  · rw [List.concat_eq_append] at hLb
    subst hLb
    have hg : (L ++ [b]).getLast? = some b := by simp
    have hfold : (L ++ [b]).foldl rdsStep [] = rdsStep (L.foldl rdsStep []) b := by
      rw [List.foldl_append]
      rfl
    unfold removeDotSegments
    simp only [hg]
    by_cases hb : (isDotSeg b || isDotDotSeg b)
    · rw [if_pos hb]
      simp
    · rw [if_neg hb]
      rw [hfold]
      unfold rdsStep
      simp only [Bool.or_eq_true] at hb
      push_neg at hb
      rw [if_neg hb.1, if_neg hb.2]
      simp

theorem schemeTail_cons_eq (c : Char) (r : Chars) :
    schemeTail (c :: r) =
      if c = ':' then some ([], r)
      else if isSchemeChar c then (schemeTail r).map (fun p => (c :: p.1, p.2)) else none := by
  rw [schemeTail]

theorem schemeSplit_cons_eq (c : Char) (r : Chars) :
    schemeSplit (c :: r) =
      if isSchemeStart c then (schemeTail r).map (fun p => (c :: p.1, p.2)) else none := by
  rw [schemeSplit]

theorem schemeTail_append {s rest : Chars} (h : ∀ c ∈ s, isSchemeChar c = true) :
    schemeTail (s ++ ':' :: rest) = some (s, rest) := by
  induction s with
  | nil => rfl
  | cons c t ih =>
    have hc := h c (List.mem_cons_self c t)
    have hcne : c ≠ ':' := by
      intro hcc
      rw [hcc] at hc
      exact absurd hc (by decide)
    rw [List.cons_append, schemeTail_cons_eq, if_neg hcne, if_pos hc,
      ih (fun d hd => h d (List.mem_cons_of_mem c hd))]
    rfl

theorem schemeSplit_append {s rest : Chars} (hs : GoodScheme s) :
    schemeSplit (s ++ ':' :: rest) = some (s, rest) := by
  obtain ⟨⟨c0, r0, rfl, hstart⟩, hall, _⟩ := hs
  rw [List.cons_append, schemeSplit_cons_eq, if_pos hstart,
    schemeTail_append (fun d hd => hall d (List.mem_cons_of_mem c0 hd))]
  rfl

theorem schemeTail_spec {l s rest : Chars} (h : schemeTail l = some (s, rest)) :
    l = s ++ ':' :: rest ∧ ∀ c ∈ s, isSchemeChar c = true := by
  induction l generalizing s rest with
  | nil => simp [schemeTail] at h
  | cons c r ih =>
    rw [schemeTail_cons_eq] at h
    by_cases hc : c = ':'
    · rw [if_pos hc] at h
      simp only [Option.some.injEq, Prod.mk.injEq] at h
      obtain ⟨h1, h2⟩ := h
      subst h1
      subst h2
      refine ⟨by rw [hc]; rfl, by simp⟩
    · rw [if_neg hc] at h
      by_cases hsc : isSchemeChar c
      · rw [if_pos hsc] at h
        cases hst : schemeTail r with
        | none => rw [hst] at h; simp at h
        | some p =>
          obtain ⟨s1, r1⟩ := p
          rw [hst] at h
          simp only [Option.map_some', Option.some.injEq, Prod.mk.injEq] at h
          obtain ⟨h1, h2⟩ := h
          obtain ⟨hr, hmem⟩ := ih hst
          subst h2
          rw [← h1, hr]
          refine ⟨rfl, fun d hd => ?_⟩
          rcases List.mem_cons.mp hd with h3 | h3
          · rw [h3]; exact hsc
          · exact hmem d h3
      · rw [if_neg hsc] at h
        simp at h

theorem schemeSplit_spec {l s rest : Chars} (h : schemeSplit l = some (s, rest)) :
    l = s ++ ':' :: rest ∧ (∃ c0 r0, s = c0 :: r0 ∧ isSchemeStart c0 = true)
      ∧ ∀ c ∈ s, isSchemeChar c = true := by
  cases l with
  | nil => simp [schemeSplit] at h
  | cons c r =>
    rw [schemeSplit_cons_eq] at h
    by_cases hst : isSchemeStart c
    · rw [if_pos hst] at h
      cases htl : schemeTail r with
      | none => rw [htl] at h; simp at h
      | some p =>
        obtain ⟨s1, r1⟩ := p
        rw [htl] at h
        simp only [Option.map_some', Option.some.injEq, Prod.mk.injEq] at h
        obtain ⟨h1, h2⟩ := h
        obtain ⟨hr, hmem⟩ := schemeTail_spec htl
        subst h2
        rw [← h1, hr]
        refine ⟨rfl, ⟨c, s1, rfl, hst⟩, fun d hd => ?_⟩
        rcases List.mem_cons.mp hd with h3 | h3
        · rw [h3]
          unfold isSchemeChar
          rw [hst]
          rfl
        · exact hmem d h3
    · rw [if_neg hst] at h
      simp at h

/- ===================== character class lemmas ===================== -/

theorem char_ne_of_toNat_ne {c d : Char} (h : c.toNat ≠ d.toNat) : c ≠ d :=
  fun he => h (congrArg Char.toNat he)

theorem isSchemeStart_toNat {c : Char} (h : isSchemeStart c = true) :
    (65 ≤ c.toNat ∧ c.toNat ≤ 90) ∨ (97 ≤ c.toNat ∧ c.toNat ≤ 122) := by
  unfold isSchemeStart at h
  simp only [Bool.or_eq_true, Bool.and_eq_true, decide_eq_true_eq] at h
  exact h

theorem isSchemeStart_lowerChar {c : Char} (h : isSchemeStart c = true) :
    isSchemeStart (lowerChar c) = true := by
  rcases isSchemeStart_toNat h with h1 | h1
  · have ht := lowerChar_toNat_of_upper h1
    unfold isSchemeStart
    simp only [Bool.or_eq_true, Bool.and_eq_true, decide_eq_true_eq]
    right
    omega
  · rwa [lowerChar_eq_self (by omega)]

theorem isSchemeStart_isSchemeChar {c : Char} (h : isSchemeStart c = true) :
    isSchemeChar c = true := by
  unfold isSchemeChar
  rw [h]
  rfl

theorem isSchemeChar_toNat {c : Char} (h : isSchemeChar c = true) :
    (65 ≤ c.toNat ∧ c.toNat ≤ 90) ∨ (97 ≤ c.toNat ∧ c.toNat ≤ 122)
      ∨ (48 ≤ c.toNat ∧ c.toNat ≤ 57) ∨ c.toNat = 43 ∨ c.toNat = 45 ∨ c.toNat = 46 := by
  by_cases h1 : isSchemeStart c
  · rcases isSchemeStart_toNat h1 with h2 | h2
    · exact Or.inl h2
    · exact Or.inr (Or.inl h2)
  · by_cases h2 : isDigitC c
    · unfold isDigitC at h2
      simp only [Bool.and_eq_true, decide_eq_true_eq] at h2
      exact Or.inr (Or.inr (Or.inl h2))
    · unfold isSchemeChar at h
      rw [Bool.not_eq_true _ |>.mp h1, Bool.not_eq_true _ |>.mp h2] at h
      simp only [Bool.false_or, Bool.or_eq_true, beq_iff_eq] at h
      rcases h with (h | h) | h
      · subst h
        exact Or.inr (Or.inr (Or.inr (Or.inl (by decide))))
      · subst h
        exact Or.inr (Or.inr (Or.inr (Or.inr (Or.inl (by decide)))))
      · subst h
        exact Or.inr (Or.inr (Or.inr (Or.inr (Or.inr (by decide)))))

theorem isSchemeChar_lowerChar {c : Char} (h : isSchemeChar c = true) :
    isSchemeChar (lowerChar c) = true := by
  rcases isSchemeChar_toNat h with h1 | h1 | h1 | h1 | h1 | h1
  · refine isSchemeStart_isSchemeChar ?_
    have ht := lowerChar_toNat_of_upper h1
    unfold isSchemeStart
    simp only [Bool.or_eq_true, Bool.and_eq_true, decide_eq_true_eq]
    right
    omega
  · rwa [lowerChar_eq_self (by omega)]
  · rwa [lowerChar_eq_self (by omega)]
  · rwa [lowerChar_eq_self (by omega)]
  · rwa [lowerChar_eq_self (by omega)]
  · rwa [lowerChar_eq_self (by omega)]

theorem isWsChar_false_of_ne {c : Char} (h1 : c ≠ ' ') (h2 : c ≠ '\t') (h3 : c ≠ '\n')
    (h4 : c ≠ '\r') : isWsChar c = false := by
  unfold isWsChar
  simp [h1, h2, h3, h4]

theorem isSchemeChar_ne {c : Char} (h : isSchemeChar c = true) :
    c ≠ '"' ∧ c ≠ '#' ∧ c ≠ '?' ∧ c ≠ '/' ∧ c ≠ '\n' ∧ c ≠ '\r' ∧ c ≠ '\t' ∧ c ≠ ' '
      ∧ c ≠ '<' ∧ c ≠ '>' := by
  have h1 := isSchemeChar_toNat h
  refine ⟨char_ne_of_toNat_ne ?_, char_ne_of_toNat_ne ?_, char_ne_of_toNat_ne ?_,
    char_ne_of_toNat_ne ?_, char_ne_of_toNat_ne ?_, char_ne_of_toNat_ne ?_,
    char_ne_of_toNat_ne ?_, char_ne_of_toNat_ne ?_, char_ne_of_toNat_ne ?_,
    char_ne_of_toNat_ne ?_⟩
  · have : ('"' : Char).toNat = 34 := rfl
    omega
  · have : ('#' : Char).toNat = 35 := rfl
    omega
  · have : ('?' : Char).toNat = 63 := rfl
    omega
  · have : ('/' : Char).toNat = 47 := rfl
    omega
  · have : ('\n' : Char).toNat = 10 := rfl
    omega
  · have : ('\r' : Char).toNat = 13 := rfl
    omega
  · have : ('\t' : Char).toNat = 9 := rfl
    omega
  · have : (' ' : Char).toNat = 32 := rfl
    omega
  · have : ('<' : Char).toNat = 60 := rfl
    omega
  · have : ('>' : Char).toNat = 62 := rfl
    omega

theorem isSchemeChar_not_ws {c : Char} (h : isSchemeChar c = true) : isWsChar c = false := by
  have hn := isSchemeChar_ne h
  exact isWsChar_false_of_ne hn.2.2.2.2.2.2.2.1 hn.2.2.2.2.2.2.1 hn.2.2.2.2.1 hn.2.2.2.2.2.1

theorem authOk_mem {auth : Chars} {c : Char} (h : authOkB auth = true) (hc : c ∈ auth) :
    c ≠ ' ' ∧ c ≠ '"' ∧ c ≠ '<' ∧ c ≠ '>' ∧ c ≠ '/' ∧ c ≠ '?' ∧ c ≠ '#' := by
  unfold authOkB at h
  simp only [Bool.and_eq_true, List.all_eq_true] at h
  have hp := h.2 c hc
  simp only [Bool.not_eq_true', Bool.or_eq_false_iff, beq_eq_false_iff_ne] at hp
  tauto

theorem authOkB_lowerC {auth : Chars} (h : authOkB auth = true) :
    authOkB (lowerC auth) = true := by
  have h0 := h
  unfold authOkB at h ⊢
  simp only [Bool.and_eq_true, List.all_eq_true] at h ⊢
  constructor
  · cases auth with
    | nil => simpa using h.1
    | cons a t => simp [lowerC]
  · intro c hc
    obtain ⟨c', hc', rfl⟩ := List.mem_map.mp hc
    have hp := authOk_mem h0 hc'
    simp only [Bool.not_eq_true', Bool.or_eq_false_iff, beq_eq_false_iff_ne]
    refine ⟨⟨⟨⟨⟨⟨?_, ?_⟩, ?_⟩, ?_⟩, ?_⟩, ?_⟩, ?_⟩
    · exact lowerChar_ne_of_ne (by decide) hp.1
    · exact lowerChar_ne_of_ne (by decide) hp.2.1
    · exact lowerChar_ne_of_ne (by decide) hp.2.2.1
    · exact lowerChar_ne_of_ne (by decide) hp.2.2.2.1
    · exact lowerChar_ne_of_ne (by decide) hp.2.2.2.2.1
    · exact lowerChar_ne_of_ne (by decide) hp.2.2.2.2.2.1
    · exact lowerChar_ne_of_ne (by decide) hp.2.2.2.2.2.2

theorem lowerC_noBadWs {l : Chars} (h : ∀ c ∈ l, c ≠ '\t' ∧ c ≠ '\n' ∧ c ≠ '\r') :
    ∀ c ∈ lowerC l, c ≠ '\t' ∧ c ≠ '\n' ∧ c ≠ '\r' := by
  intro c hc
  obtain ⟨c', hc', rfl⟩ := List.mem_map.mp hc
  have hp := h c' hc'
  exact ⟨lowerChar_ne_of_ne (by decide) hp.1, lowerChar_ne_of_ne (by decide) hp.2.1,
    lowerChar_ne_of_ne (by decide) hp.2.2⟩

/- ===================== goodness of parsed components ===================== -/

theorem goodScheme_lowerC {sch : Chars}
    (hne : ∃ c0 r0, sch = c0 :: r0 ∧ isSchemeStart c0 = true)
    (hall : ∀ c ∈ sch, isSchemeChar c = true) : GoodScheme (lowerC sch) := by
  obtain ⟨c0, r0, rfl, hst⟩ := hne
  refine ⟨⟨lowerChar c0, lowerC r0, rfl, isSchemeStart_lowerChar hst⟩, ?_, ?_⟩
  · intro c hc
    obtain ⟨c', hc', rfl⟩ := List.mem_map.mp hc
    exact isSchemeChar_lowerChar (hall c' hc')
  · intro c hc
    obtain ⟨c', _, rfl⟩ := List.mem_map.mp hc
    exact lowerChar_idem c'

theorem goodSeg_encodeC {s : Chars}
    (h : ∀ c ∈ s, c ≠ '/' ∧ c ≠ '?' ∧ c ≠ '#' ∧ c ≠ '\t' ∧ c ≠ '\n' ∧ c ≠ '\r') :
    GoodSeg (encodeC s) := by
  intro d hd
  obtain ⟨c, hc, hdc⟩ := encodeC_mem hd
  have hcp := h c hc
  rcases encChar_mem_not hdc with ⟨rfl, q1, q2, q3, q4⟩ | ⟨q1, q2, q3, q4, q5, q6, q7, q8, q9, q10⟩
  · exact ⟨hcp.1, hcp.2.1, hcp.2.2.1, q1, q2, q3, q4, hcp.2.2.2.1, hcp.2.2.2.2.1,
      hcp.2.2.2.2.2⟩
  · exact ⟨q5, q6, q7, q1, q2, q3, q4, q8, q9, q10⟩

theorem goodTail_encodeTailC {t : Chars}
    (hhead : t = [] ∨ t.head? = some '?' ∨ t.head? = some '#')
    (h : ∀ c ∈ t, c ≠ '\t' ∧ c ≠ '\n' ∧ c ≠ '\r') : GoodTail (encodeTailC t) := by
  constructor
  · rcases hhead with rfl | h1 | h1
    · left
      rfl
    · exact Or.inr (Or.inl (encodeTailC_head h1 (Or.inl rfl)))
    · exact Or.inr (Or.inr (encodeTailC_head h1 (Or.inr rfl)))
  · intro d hd
    obtain ⟨c, hc, hdc⟩ := encodeTailC_mem hd
    by_cases hck : ((c = '?' : Bool) || (c = '#' : Bool))
    · rw [if_pos hck] at hdc
      have hde : d = c := by simpa using hdc
      subst hde
      simp only [Bool.or_eq_true, decide_eq_true_eq] at hck
      rcases hck with h1 | h1 <;> subst h1 <;> exact ⟨by decide, by decide, by decide,
        by decide, by decide, by decide, by decide⟩
    · rw [if_neg hck] at hdc
      have hcf := h c hc
      rcases encChar_mem_not hdc with ⟨rfl, q1, q2, q3, q4⟩ |
        ⟨q1, q2, q3, q4, q5, q6, q7, q8, q9, q10⟩
      · exact ⟨q1, q2, q3, q4, hcf.1, hcf.2.1, hcf.2.2⟩
      · exact ⟨q1, q2, q3, q4, q8, q9, q10⟩

theorem parseHier_good {sch rest2 : Chars} {u : UrlR}
    (hne : ∃ c0 r0, sch = c0 :: r0 ∧ isSchemeStart c0 = true)
    (hall : ∀ c ∈ sch, isSchemeChar c = true)
    (hrest : ∀ c ∈ rest2, c ≠ '\t' ∧ c ≠ '\n' ∧ c ≠ '\r')
    (h : parseHier sch rest2 = some u) : GoodUrl u := by
  unfold parseHier at h
  by_cases hauth : authOkB (rest2.takeWhile notAuthEnd)
  · rw [if_pos hauth] at h
    simp only [Option.some.injEq] at h
    subst h
    have hafter : ∀ c ∈ rest2.dropWhile notAuthEnd, c ≠ '\t' ∧ c ≠ '\n' ∧ c ≠ '\r' :=
      fun c hc => hrest c ((List.dropWhile_sublist _).subset hc)
    have hpathStr : ∀ c ∈ (rest2.dropWhile notAuthEnd).takeWhile notTailStart,
        (c ≠ '?' ∧ c ≠ '#') ∧ c ≠ '\t' ∧ c ≠ '\n' ∧ c ≠ '\r' := by
      intro c hc
      refine ⟨?_, hafter c ((List.takeWhile_sublist _).subset hc)⟩
      have := List.mem_takeWhile_imp hc
      unfold notTailStart at this
      simp only [Bool.not_eq_true', Bool.or_eq_false_iff, beq_eq_false_iff_ne] at this
      exact this
    refine ⟨goodScheme_lowerC hne hall, ?_, ?_, ?_, removeDotSegments_noDots _, ?_⟩
    · refine ⟨authOkB_lowerC hauth, ?_, ?_⟩
      · intro c hc
        obtain ⟨c', _, rfl⟩ := List.mem_map.mp hc
        exact lowerChar_idem c'
      · exact lowerC_noBadWs (fun c hc =>
          hrest c ((List.takeWhile_sublist _).subset hc))
    · exact removeDotSegments_ne_nil (by
        intro hm
        exact splitSlash_ne_nil _ (List.map_eq_nil_iff.mp hm))
    · intro s hs
      rcases removeDotSegments_mem hs with h1 | h1
      · obtain ⟨s', hs', rfl⟩ := List.mem_map.mp h1
        refine goodSeg_encodeC (fun c hc => ?_)
        have hnos : c ≠ '/' := fun he => splitSlash_mem_no_slash hs' (he ▸ hc)
        by_cases hps : ((rest2.dropWhile notAuthEnd).takeWhile notTailStart) = []
        · rw [if_pos hps] at hs'
          have := splitSlash_mem_subset hs' hc
          simp at this
        · rw [if_neg hps] at hs'
          have hmem := splitSlash_mem_subset hs' hc
          have hsub := (List.drop_sublist 1 _).subset hmem
          have := hpathStr c hsub
          exact ⟨hnos, this.1.1, this.1.2, this.2⟩
      · subst h1
        intro c hc
        simp at hc
    · refine goodTail_encodeTailC ?_ (fun c hc =>
        hafter c ((List.dropWhile_sublist _).subset hc))
      cases htl : (rest2.dropWhile notAuthEnd).dropWhile notTailStart with
      | nil => exact Or.inl rfl
      | cons a r =>
        have := @dropWhile_head_false notTailStart
          (rest2.dropWhile notAuthEnd) a (by rw [htl]; rfl)
        unfold notTailStart at this
        simp only [Bool.not_eq_false', Bool.or_eq_true, beq_iff_eq] at this
        rcases this with h1 | h1
        · exact Or.inr (Or.inl (by rw [h1]; simp))
        · exact Or.inr (Or.inr (by rw [h1]; simp))
  · rw [if_neg hauth] at h
    simp at h

theorem parseAbsolute_good {s : Chars} {u : UrlR} (h : parseAbsolute s = some u) :
    GoodUrl u := by
  unfold parseAbsolute at h
  cases hsp : schemeSplit (cleanse s) with
  | none => rw [hsp] at h; simp at h
  | some p =>
    obtain ⟨sch, rest⟩ := p
    simp only [hsp] at h
    obtain ⟨hdec, hne, hall⟩ := schemeSplit_spec hsp
    by_cases htk : rest.take 2 = ['/', '/']
    · rw [if_pos htk] at h
      refine parseHier_good hne hall (fun c hc => ?_) h
      refine @cleanse_no_ctl s c ?_
      rw [hdec]
      refine List.mem_append.mpr (Or.inr ?_)
      exact List.mem_cons_of_mem _ ((List.drop_sublist 2 rest).subset hc)
    · rw [if_neg htk] at h
      simp only [Option.some.injEq] at h
      subst h
      exact ⟨cleanse_idem s, (sch, rest), hsp, htk⟩

/- ===================== render/parse roundtrip ===================== -/

theorem notAuthEnd_eq_true {c : Char} (h1 : c ≠ '/') (h2 : c ≠ '?') (h3 : c ≠ '#') :
    notAuthEnd c = true := by
  unfold notAuthEnd
  simp [h1, h2, h3]

theorem notTailStart_eq_true {c : Char} (h2 : c ≠ '?') (h3 : c ≠ '#') :
    notTailStart c = true := by
  unfold notTailStart
  simp [h2, h3]

theorem goodTail_takeWhile_nil {t : Chars} (h : GoodTail t) :
    t.takeWhile notTailStart = [] := by
  cases t with
  | nil => rfl
  | cons a r =>
    rcases h.1 with h1 | h1 | h1
    · simp at h1
    · have ha : a = '?' := by simpa using h1
      exact takeWhile_cons_false (by rw [ha]; decide)
    · have ha : a = '#' := by simpa using h1
      exact takeWhile_cons_false (by rw [ha]; decide)

theorem goodTail_dropWhile_self {t : Chars} (h : GoodTail t) :
    t.dropWhile notTailStart = t := by
  cases t with
  | nil => rfl
  | cons a r =>
    rcases h.1 with h1 | h1 | h1
    · simp at h1
    · have ha : a = '?' := by simpa using h1
      exact dropWhile_cons_false (by rw [ha]; decide)
    · have ha : a = '#' := by simpa using h1
      exact dropWhile_cons_false (by rw [ha]; decide)

theorem joinSlash_notTailStart {segs : List Chars} (h : ∀ s ∈ segs, GoodSeg s) :
    ∀ c ∈ joinSlash segs, notTailStart c = true := by
  intro c hc
  rcases joinSlash_mem hc with h1 | ⟨s, hs, hcs⟩
  · subst h1
    decide
  · have := h s hs c hcs
    exact notTailStart_eq_true this.2.1 this.2.2.1

theorem renderUrl_hier_allNotWs {sch host : Chars} {segs : List Chars} {tail : Chars}
    (hg : GoodUrl (.hier sch host segs tail)) :
    AllNotWs (renderUrl (.hier sch host segs tail)) := by
  obtain ⟨hsch, hhost, hne, hsegs, hnodots, htail⟩ := hg
  intro c hc
  unfold renderUrl at hc
  rcases List.mem_append.mp hc with h1 | h1
  · exact isSchemeChar_not_ws (hsch.2.1 c h1)
  · rcases List.mem_cons.mp h1 with rfl | h1
    · decide
    rcases List.mem_cons.mp h1 with rfl | h1
    · decide
    rcases List.mem_cons.mp h1 with rfl | h1
    · decide
    rcases List.mem_append.mp h1 with h1 | h1
    · have ha := authOk_mem hhost.1 h1
      have h2 := hhost.2.2 c h1
      exact isWsChar_false_of_ne ha.1 h2.1 h2.2.1 h2.2.2
    rcases List.mem_cons.mp h1 with rfl | h1
    · decide
    rcases List.mem_append.mp h1 with h1 | h1
    · rcases joinSlash_mem h1 with rfl | ⟨s, hs, hcs⟩
      · decide
      · have := hsegs s hs c hcs
        exact isWsChar_false_of_ne this.2.2.2.1 this.2.2.2.2.2.2.2.1
          this.2.2.2.2.2.2.2.2.1 this.2.2.2.2.2.2.2.2.2
    · have := htail.2 c h1
      exact isWsChar_false_of_ne this.1 this.2.2.2.2.1 this.2.2.2.2.2.1 this.2.2.2.2.2.2

theorem renderUrl_cleanse {u : UrlR} (h : GoodUrl u) : cleanse (renderUrl u) = renderUrl u := by
  cases u with
  | hier sch host segs tail => exact cleanse_eq_self (renderUrl_hier_allNotWs h)
  | flat t => exact h.1

theorem parseAbsolute_renderUrl {u : UrlR} (h : GoodUrl u) :
    parseAbsolute (renderUrl u) = some u := by
  cases u with
  | flat t =>
    obtain ⟨hc, p, hp, htk⟩ := h
    obtain ⟨s1, r1⟩ := p
    unfold parseAbsolute renderUrl
    simp only [hc, hp]
    rw [if_neg htk]
  | hier sch host segs tail =>
    obtain ⟨hsch, hhost, hne, hsegs, hnodots, htail⟩ := h
    have hhostAuth : ∀ c ∈ host, notAuthEnd c = true := by
      intro c hc
      have := authOk_mem hhost.1 hc
      exact notAuthEnd_eq_true this.2.2.2.2.1 this.2.2.2.2.2.1 this.2.2.2.2.2.2
    have htw : (host ++ '/' :: (joinSlash segs ++ tail)).takeWhile notAuthEnd = host := by
      rw [takeWhile_append_all hhostAuth, takeWhile_cons_false (by decide)]
      exact List.append_nil host
    have hdw : (host ++ '/' :: (joinSlash segs ++ tail)).dropWhile notAuthEnd
        = '/' :: (joinSlash segs ++ tail) := by
      rw [dropWhile_append_all hhostAuth]
      exact dropWhile_cons_false (by decide)
    have hpath1 : ('/' :: (joinSlash segs ++ tail)).takeWhile notTailStart
        = '/' :: joinSlash segs := by
      rw [List.takeWhile_cons, if_pos (by decide),
        takeWhile_append_all (joinSlash_notTailStart hsegs), goodTail_takeWhile_nil htail]
      rw [List.append_nil]
    have hdrop1 : ('/' :: (joinSlash segs ++ tail)).dropWhile notTailStart = tail := by
      rw [List.dropWhile_cons, if_pos (by decide),
        dropWhile_append_all (joinSlash_notTailStart hsegs)]
      exact goodTail_dropWhile_self htail
    have hsplit : splitSlash (joinSlash segs) = segs :=
      splitSlash_joinSlash hne (fun s hs hc => (hsegs s hs '/' hc).1 rfl)
    have hmap : segs.map encodeC = segs :=
      (List.map_congr_left (fun s hs => encodeC_eq_self (fun c hc =>
        let t := hsegs s hs c hc
        ⟨t.2.2.2.1, t.2.2.2.2.1, t.2.2.2.2.2.1, t.2.2.2.2.2.2.1⟩))).trans (List.map_id segs)
    have henc : encodeTailC tail = tail :=
      encodeTailC_eq_self (fun c hc =>
        let t := htail.2 c hc
        ⟨t.1, t.2.1, t.2.2.1, t.2.2.2.1⟩)
    have hws := renderUrl_hier_allNotWs ⟨hsch, hhost, hne, hsegs, hnodots, htail⟩
    unfold parseAbsolute
    rw [cleanse_eq_self hws]
    show (match schemeSplit (sch ++ ':' :: ('/' :: '/' ::
        (host ++ '/' :: (joinSlash segs ++ tail)))) with
      | none => none
      | some (sch1, rest) =>
        if rest.take 2 = ['/', '/'] then parseHier sch1 (rest.drop 2)
        else some (UrlR.flat (renderUrl (.hier sch host segs tail)))) =
      some (.hier sch host segs tail)
    rw [schemeSplit_append hsch]
    show (if (('/' :: '/' :: (host ++ '/' :: (joinSlash segs ++ tail))).take 2 = ['/', '/'])
        then parseHier sch (('/' :: '/' :: (host ++ '/' :: (joinSlash segs ++ tail))).drop 2)
        else some (UrlR.flat (renderUrl (.hier sch host segs tail)))) =
      some (.hier sch host segs tail)
    rw [if_pos (show List.take 2 ('/' :: '/' :: (host ++ '/' :: (joinSlash segs ++ tail)))
      = ['/', '/'] from rfl)]
    show parseHier sch (host ++ '/' :: (joinSlash segs ++ tail)) = some (.hier sch host segs tail)
    unfold parseHier
    rw [htw, hdw, if_pos hhost.1, hpath1, hdrop1, henc,
      lowerC_eq_self hsch.2.2, lowerC_eq_self hhost.2.1]
    rw [if_neg (by simp)]
    show some (UrlR.hier sch host
        (removeDotSegments ((splitSlash (joinSlash segs)).map encodeC)) tail) =
      some (.hier sch host segs tail)
    rw [hsplit, hmap, removeDotSegments_eq_self hnodots]

/- ===================== resolver output well-formedness ===================== -/

theorem goodTail_dropWhile_encode {l : Chars}
    (h : ∀ c ∈ l.dropWhile notTailStart, c ≠ '\t' ∧ c ≠ '\n' ∧ c ≠ '\r') :
    GoodTail (encodeTailC (l.dropWhile notTailStart)) := by
  refine goodTail_encodeTailC ?_ h
  cases htl : l.dropWhile notTailStart with
  | nil => exact Or.inl rfl
  | cons a r =>
    have := @dropWhile_head_false notTailStart l a (by rw [htl]; rfl)
    unfold notTailStart at this
    simp only [Bool.not_eq_false', Bool.or_eq_true, beq_iff_eq] at this
    rcases this with h1 | h1
    · exact Or.inr (Or.inl (by rw [h1]; simp))
    · exact Or.inr (Or.inr (by rw [h1]; simp))

theorem dropFragC_sub {t : Chars} : ∀ c ∈ dropFragC t, c ∈ t := fun _ hc =>
  (List.takeWhile_sublist _).subset hc

theorem goodTail_dropFrag {t : Chars} (h : GoodTail t) : GoodTail (dropFragC t) := by
  constructor
  · cases t with
    | nil => exact Or.inl rfl
    | cons a r =>
      rcases h.1 with h1 | h1 | h1
      · simp at h1
      · have ha : a = '?' := by simpa using h1
        subst ha
        unfold dropFragC
        rw [List.takeWhile_cons, if_pos (by decide)]
        exact Or.inr (Or.inl rfl)
      · have ha : a = '#' := by simpa using h1
        subst ha
        unfold dropFragC
        rw [List.takeWhile_cons, if_neg (by decide)]
        exact Or.inl rfl
  · intro c hc
    exact h.2 c (dropFragC_sub c hc)

theorem goodTail_append_frag {t f : Chars} (ht : GoodTail t) (hf : GoodTail f)
    (hfh : f.head? = some '#') : GoodTail (dropFragC t ++ f) := by
  constructor
  · cases hd : dropFragC t with
    | nil =>
      rw [List.nil_append]
      exact Or.inr (Or.inr hfh)
    | cons a r =>
      rcases (goodTail_dropFrag ht).1 with h1 | h1 | h1
      · rw [hd] at h1
        simp at h1
      · rw [hd] at h1
        have ha : a = '?' := by simpa using h1
        subst ha
        exact Or.inr (Or.inl rfl)
      · exfalso
        rw [hd] at h1
        have ha : a = '#' := by simpa using h1
        have hmem : a ∈ dropFragC t := by
          rw [hd]
          exact List.mem_cons_self a r
        unfold dropFragC at hmem
        have := List.mem_takeWhile_imp hmem
        rw [ha] at this
        simp at this
  · intro c hc
    rcases List.mem_append.mp hc with h1 | h1
    · exact ht.2 c (dropFragC_sub c h1)
    · exact hf.2 c h1

theorem relPath_char_facts {rel : Chars} :
    ∀ c ∈ (cleanse rel).takeWhile notTailStart,
      (c ≠ '?' ∧ c ≠ '#') ∧ c ≠ '\t' ∧ c ≠ '\n' ∧ c ≠ '\r' := by
  intro c hc
  have h1 := List.mem_takeWhile_imp hc
  unfold notTailStart at h1
  simp only [Bool.not_eq_true', Bool.or_eq_false_iff, beq_eq_false_iff_ne] at h1
  exact ⟨h1, cleanse_no_ctl ((List.takeWhile_sublist _).subset hc)⟩

theorem renderUrl_hier_no_quote {sch host : Chars} {segs : List Chars} {tail : Chars}
    (hg : GoodUrl (.hier sch host segs tail)) :
    '"' ∉ renderUrl (.hier sch host segs tail) := by
  obtain ⟨hsch, hhost, hne, hsegs, hnodots, htail⟩ := hg
  intro hc
  unfold renderUrl at hc
  rcases List.mem_append.mp hc with h1 | h1
  · exact (isSchemeChar_ne (hsch.2.1 _ h1)).1 rfl
  · rcases List.mem_cons.mp h1 with he | h1
    · exact absurd he (by decide)
    rcases List.mem_cons.mp h1 with he | h1
    · exact absurd he (by decide)
    rcases List.mem_cons.mp h1 with he | h1
    · exact absurd he (by decide)
    rcases List.mem_append.mp h1 with h1 | h1
    · exact (authOk_mem hhost.1 h1).2.1 rfl
    rcases List.mem_cons.mp h1 with he | h1
    · exact absurd he (by decide)
    rcases List.mem_append.mp h1 with h1 | h1
    · rcases joinSlash_mem h1 with he | ⟨s, hs, hcs⟩
      · exact absurd he (by decide)
      · exact (hsegs s hs _ hcs).2.2.2.2.1 rfl
    · exact (htail.2 _ h1).2.1 rfl

theorem parseHier_not_flat {sch r t : Chars} : parseHier sch r ≠ some (.flat t) := by
  unfold parseHier
  by_cases h : authOkB (r.takeWhile notAuthEnd)
  · rw [if_pos h]
    intro he
    injection he with he
    exact UrlR.noConfusion he
  · rw [if_neg h]
    intro he
    exact Option.noConfusion he

theorem parseAbsolute_flat_eq {s t : Chars} (h : parseAbsolute s = some (.flat t)) :
    t = cleanse s := by
  unfold parseAbsolute at h
  cases hs : schemeSplit (cleanse s) with
  | none =>
    rw [hs] at h
    exact Option.noConfusion h
  | some p =>
    obtain ⟨s1, r1⟩ := p
    simp only [hs] at h
    by_cases htk : r1.take 2 = ['/', '/']
    · rw [if_pos htk] at h
      exact absurd h parseHier_not_flat
    · rw [if_neg htk] at h
      injection h with h
      injection h with h
      exact h.symm

theorem urlResolveC_good {b rel out : Chars} (h : urlResolveC b rel = some out) :
    ∃ u, GoodUrl u ∧ out = renderUrl u
      ∧ ((∃ sch host segs tail, u = UrlR.hier sch host segs tail)
        ∨ (∀ c ∈ renderUrl u, (c = '"' → '"' ∈ rel) ∧ c ≠ '\t' ∧ c ≠ '\n' ∧ c ≠ '\r')) := by
  unfold urlResolveC at h
  cases hs : schemeSplit (cleanse rel) with
  | some p =>
    simp only [hs] at h
    cases hpa : parseAbsolute (cleanse rel) with
    | none =>
      rw [hpa] at h
      simp at h
    | some u =>
      rw [hpa, Option.map_some'] at h
      injection h with h
      cases u with
      | hier s2 h2 g2 t2 =>
        exact ⟨_, parseAbsolute_good hpa, h.symm, Or.inl ⟨s2, h2, g2, t2, rfl⟩⟩
      | flat t =>
        refine ⟨_, parseAbsolute_good hpa, h.symm, Or.inr ?_⟩
        intro c hc
        have ht : t = cleanse (cleanse rel) := parseAbsolute_flat_eq hpa
        rw [show renderUrl (UrlR.flat t) = t from rfl, ht] at hc
        refine ⟨?_, cleanse_no_ctl hc⟩
        intro he
        subst he
        exact cleanse_subset (cleanse_subset hc)
  | none =>
    simp only [hs] at h
    cases hpb : parseAbsolute b with
    | none =>
      simp only [hpb] at h
      exact Option.noConfusion h
    | some ub =>
      cases ub with
      | flat t =>
        simp only [hpb] at h
        exact Option.noConfusion h
      | hier sch host segs tail =>
        simp only [hpb] at h
        have hgb := parseAbsolute_good hpb
        obtain ⟨hsch, hhost, hne, hsegs, hnodots, htail⟩ := hgb
        by_cases h1 : (cleanse rel).take 2 = ['/', '/']
        · rw [if_pos h1] at h
          cases hpa : parseAbsolute (sch ++ ':' :: cleanse rel) with
          | none =>
            rw [hpa] at h
            simp at h
          | some u =>
            rw [hpa, Option.map_some'] at h
            injection h with h
            cases u with
            | hier s2 h2 g2 t2 =>
              exact ⟨_, parseAbsolute_good hpa, h.symm, Or.inl ⟨s2, h2, g2, t2, rfl⟩⟩
            | flat t =>
              refine ⟨_, parseAbsolute_good hpa, h.symm, Or.inr ?_⟩
              intro c hc
              have ht : t = cleanse (sch ++ ':' :: cleanse rel) := parseAbsolute_flat_eq hpa
              rw [show renderUrl (UrlR.flat t) = t from rfl, ht] at hc
              refine ⟨?_, cleanse_no_ctl hc⟩
              intro he
              subst he
              have hc2 := cleanse_subset hc
              rcases List.mem_append.mp hc2 with h6 | h6
              · exact absurd rfl (isSchemeChar_ne (hsch.2.1 _ h6)).1
              · rcases List.mem_cons.mp h6 with h7 | h7
                · exact absurd h7 (by decide)
                · exact cleanse_subset h7
        · rw [if_neg h1] at h
          by_cases h2 : (cleanse rel).head? = some '/'
          · rw [if_pos h2] at h
            injection h with h
            refine ⟨_, ?_, h.symm, Or.inl ⟨_, _, _, _, rfl⟩⟩
            refine ⟨hsch, hhost, ?_, ?_, removeDotSegments_noDots _, ?_⟩
            · exact removeDotSegments_ne_nil (by
                intro hm
                exact splitSlash_ne_nil _ (List.map_eq_nil_iff.mp hm))
            · intro s hsx
              rcases removeDotSegments_mem hsx with hh | hh
              · obtain ⟨s', hs', rfl⟩ := List.mem_map.mp hh
                refine goodSeg_encodeC (fun c hc => ?_)
                have hnos : c ≠ '/' := fun he => splitSlash_mem_no_slash hs' (he ▸ hc)
                have hsub : c ∈ (cleanse rel).takeWhile notTailStart :=
                  (List.drop_sublist 1 _).subset (splitSlash_mem_subset hs' hc)
                have := relPath_char_facts c hsub
                exact ⟨hnos, this.1.1, this.1.2, this.2⟩
              · subst hh
                intro c hc
                simp at hc
            · exact goodTail_dropWhile_encode (fun c hc =>
                cleanse_no_ctl ((List.dropWhile_sublist _).subset hc))
          · rw [if_neg h2] at h
            by_cases h3 : (cleanse rel).head? = some '?'
            · rw [if_pos h3] at h
              injection h with h
              refine ⟨_, ?_, h.symm, Or.inl ⟨_, _, _, _, rfl⟩⟩
              exact ⟨hsch, hhost, hne, hsegs, hnodots,
                goodTail_encodeTailC (Or.inr (Or.inl h3)) (fun c hc => cleanse_no_ctl hc)⟩
            · rw [if_neg h3] at h
              by_cases h4 : (cleanse rel).head? = some '#'
              · rw [if_pos h4] at h
                injection h with h
                refine ⟨_, ?_, h.symm, Or.inl ⟨_, _, _, _, rfl⟩⟩
                refine ⟨hsch, hhost, hne, hsegs, hnodots, ?_⟩
                refine goodTail_append_frag htail ?_ (encodeTailC_head h4 (Or.inr rfl))
                exact goodTail_encodeTailC (Or.inr (Or.inr h4)) (fun c hc => cleanse_no_ctl hc)
              · rw [if_neg h4] at h
                by_cases h5 : cleanse rel = []
                · rw [if_pos h5] at h
                  injection h with h
                  refine ⟨_, ?_, h.symm, Or.inl ⟨_, _, _, _, rfl⟩⟩
                  exact ⟨hsch, hhost, hne, hsegs, hnodots, goodTail_dropFrag htail⟩
                · rw [if_neg h5] at h
                  injection h with h
                  refine ⟨_, ?_, h.symm, Or.inl ⟨_, _, _, _, rfl⟩⟩
                  refine ⟨hsch, hhost, ?_, ?_, removeDotSegments_noDots _, ?_⟩
                  · refine removeDotSegments_ne_nil ?_
                    intro hm
                    rcases List.append_eq_nil.mp hm with ⟨_, hm2⟩
                    exact splitSlash_ne_nil _ (List.map_eq_nil_iff.mp hm2)
                  · intro s hsx
                    rcases removeDotSegments_mem hsx with hh | hh
                    · rcases List.mem_append.mp hh with hh | hh
                      · exact hsegs s ((List.dropLast_sublist segs).subset hh)
                      · obtain ⟨s', hs', rfl⟩ := List.mem_map.mp hh
                        refine goodSeg_encodeC (fun c hc => ?_)
                        have hnos : c ≠ '/' :=
                          fun he => splitSlash_mem_no_slash hs' (he ▸ hc)
                        have := relPath_char_facts c (splitSlash_mem_subset hs' hc)
                        exact ⟨hnos, this.1.1, this.1.2, this.2⟩
                    · subst hh
                      intro c hc
                      simp at hc
                  · exact goodTail_dropWhile_encode (fun c hc =>
                      cleanse_no_ctl ((List.dropWhile_sublist _).subset hc))

theorem renderUrl_hasScheme {u : UrlR} (h : GoodUrl u) :
    ∃ p, schemeSplit (renderUrl u) = some p := by
  cases u with
  | hier sch host segs tail =>
    exact ⟨(sch, _), schemeSplit_append h.1⟩
  | flat t =>
    obtain ⟨hc, p, hp, htk⟩ := h
    exact ⟨p, hp⟩

theorem urlResolveC_fixed {b rel out : Chars} (h : urlResolveC b rel = some out) :
    urlResolveC b out = some out := by
  obtain ⟨u, hg, rfl, -⟩ := urlResolveC_good h
  unfold urlResolveC
  rw [renderUrl_cleanse hg]
  obtain ⟨p, hp⟩ := renderUrl_hasScheme hg
  simp only [hp]
  rw [parseAbsolute_renderUrl hg, Option.map_some']

theorem resolveRelativeC_fixed {b rel out : Chars} (h : urlResolveC b rel = some out) :
    resolveRelativeC b out = out := by
  unfold resolveRelativeC
  rw [urlResolveC_fixed h]
  rfl

/- ===================== resolver output shape facts ===================== -/

theorem trimC_eq_of_cleanse {l : Chars} (h : cleanse l = l) : trimC l = l := by
  have h2 : stripCtl (trimC l) = l := h
  have h1 : (trimC l).length ≤ l.length := by
    unfold trimC
    rw [List.length_reverse]
    calc ((l.dropWhile isWsChar).reverse.dropWhile isWsChar).length
        ≤ (l.dropWhile isWsChar).reverse.length := (List.dropWhile_sublist _).length_le
      _ = (l.dropWhile isWsChar).length := List.length_reverse _
      _ ≤ l.length := (List.dropWhile_sublist _).length_le
  have hlen : (trimC l).length = l.length := by
    have hle2 : (stripCtl (trimC l)).length ≤ (trimC l).length := List.length_filter_le _ _
    rw [h2] at hle2
    omega
  have h4 : stripCtl (trimC l) = trimC l :=
    List.Sublist.eq_of_length (List.filter_sublist _) (by rw [h2, hlen])
  exact h4.symm.trans h2

theorem goodUrl_head_scheme {u : UrlR} (h : GoodUrl u) :
    ∃ c, (renderUrl u).head? = some c ∧ isSchemeStart c = true := by
  cases u with
  | hier sch host segs tail =>
    obtain ⟨⟨⟨c0, r0, rfl, hst⟩, _, _⟩, _, _, _, _, _⟩ := h
    exact ⟨c0, by simp [renderUrl], hst⟩
  | flat t =>
    obtain ⟨hc, p, hp, htk⟩ := h
    obtain ⟨s1, r1⟩ := p
    obtain ⟨hdec, ⟨c0, r0, rfl, hst⟩, hall⟩ := schemeSplit_spec hp
    exact ⟨c0, by rw [show renderUrl (.flat t) = t from rfl, hdec]; rfl, hst⟩

theorem renderUrl_ne_nil {u : UrlR} (h : GoodUrl u) : renderUrl u ≠ [] := by
  obtain ⟨c, hc, _⟩ := goodUrl_head_scheme h
  intro hnil
  rw [hnil] at hc
  simp at hc

theorem leadsCI_head {pat l : Chars} {p0 : Char} (hp : pat.head? = some p0)
    (h : leadsCI pat l = true) : ∃ c, l.head? = some c ∧ lowerChar c = p0 := by
  unfold leadsCI at h
  rw [decide_eq_true_eq] at h
  cases pat with
  | nil => simp at hp
  | cons q qr =>
    have hq : q = p0 := by simpa using hp
    cases l with
    | nil =>
      rw [show lowerC ([] : Chars) = [] from rfl, List.take_nil] at h
      exact absurd h.symm (List.cons_ne_nil q qr)
    | cons c r =>
      rw [show lowerC (c :: r) = lowerChar c :: lowerC r from rfl,
        List.length_cons, List.take_succ_cons] at h
      injection h with h1 _
      exact ⟨c, rfl, by rw [h1, hq]⟩

theorem urlResolveC_no_quote {b rel out : Chars} (h : urlResolveC b rel = some out)
    (hq : '"' ∉ rel) : '"' ∉ out := by
  obtain ⟨u, hg, rfl, hd⟩ := urlResolveC_good h
  rcases hd with ⟨sch, host, segs, tail, rfl⟩ | hd
  · exact renderUrl_hier_no_quote hg
  · intro hmem
    exact hq ((hd '"' hmem).1 rfl)

theorem resolveRelativeC_no_quote {b cap : Chars} (hq : '"' ∉ cap) :
    '"' ∉ resolveRelativeC b cap := by
  unfold resolveRelativeC
  cases h : urlResolveC b cap with
  | none => exact hq
  | some out => exact urlResolveC_no_quote h hq

theorem resolveRelativeC_ne_nil {b cap : Chars} (hc : cap ≠ []) :
    resolveRelativeC b cap ≠ [] := by
  unfold resolveRelativeC
  cases h : urlResolveC b cap with
  | none => exact hc
  | some out =>
    obtain ⟨u, hg, rfl, -⟩ := urlResolveC_good h
    exact renderUrl_ne_nil hg

theorem resolveRelativeC_idem (b cap : Chars) :
    resolveRelativeC b (resolveRelativeC b cap) = resolveRelativeC b cap := by
  cases h : urlResolveC b cap with
  | none =>
    unfold resolveRelativeC
    rw [h]
    simp only [Option.getD_none]
    rw [h]
    rfl
  | some out =>
    unfold resolveRelativeC
    rw [h]
    simp only [Option.getD_some]
    rw [urlResolveC_fixed h]
    rfl

/- ===================== first-match URI attribute replacement ===================== -/

theorem scanReplace_cons_eq (b : Chars) (c : Char) (t : Chars) :
    scanReplace b (c :: t) =
      match tryMatchAt (c :: t) with
      | some (cap, aft) => some (uriPat ++ (resolveRelativeC b cap ++ '"' :: aft))
      | none => (scanReplace b t).map (fun l => c :: l) := by
  rw [scanReplace]

theorem lowerC_length (l : Chars) : (lowerC l).length = l.length := List.length_map _ _

theorem lowerC_take5 {z : Chars} (hz : (lowerC z).take 5 = uriLowerPat) {m : Nat}
    (hm : m ≤ 5) : (lowerC z).take m = uriLowerPat.take m := by
  rw [← hz, List.take_take, inf_eq_left.mpr hm]

theorem quote_mem_take {z : Chars} (hz : (lowerC z).take 5 = uriLowerPat) {m : Nat}
    (hm : 5 ≤ m) : '"' ∈ (lowerC z).take m := by
  have h5 : (lowerC z).take 5 = ((lowerC z).take m).take 5 := by
    rw [List.take_take, inf_eq_left.mpr hm]
  refine List.take_subset 5 _ ?_
  rw [← h5, hz]
  decide

theorem take5_of_uriHead {w z : Chars} (hw : lowerC w = uriLowerPat) :
    (lowerC (w ++ z)).take 5 = uriLowerPat := by
  rw [show lowerC (w ++ z) = lowerC w ++ lowerC z from List.map_append _ _ _, hw,
    List.take_append_of_le_length (by decide)]
  decide

theorem leadsCI_eq_append (pat a : Chars) {x y : Chars}
    (hx : (lowerC x).take 5 = uriLowerPat) (hy : (lowerC y).take 5 = uriLowerPat)
    (hcase : pat.length < a.length + 5 ∨ '"' ∉ pat) :
    leadsCI pat (a ++ x) = leadsCI pat (a ++ y) := by
  unfold leadsCI
  rw [decide_eq_decide]
  rw [show lowerC (a ++ x) = lowerC a ++ lowerC x from List.map_append _ _ _,
      show lowerC (a ++ y) = lowerC a ++ lowerC y from List.map_append _ _ _,
      List.take_append_eq_append_take, List.take_append_eq_append_take, lowerC_length]
  by_cases h1 : pat.length ≤ a.length
  · rw [show pat.length - a.length = 0 from by omega]
    simp
  · by_cases h2 : pat.length < a.length + 5
    · rw [lowerC_take5 hx (by omega), ← lowerC_take5 hy (by omega)]
    · have hq : '"' ∉ pat := hcase.resolve_left h2
      constructor <;> intro he <;> exfalso
      · refine hq ?_
        rw [← he]
        exact List.mem_append.mpr (Or.inr (quote_mem_take hx (by omega)))
      · refine hq ?_
        rw [← he]
        exact List.mem_append.mpr (Or.inr (quote_mem_take hy (by omega)))

theorem dropWhile_quote_ne_nil {X : Chars} (h : '"' ∈ X) :
    X.dropWhile (fun c => !(c == '"')) ≠ [] := by
  induction X with
  | nil => simp at h
  | cons c t ih =>
    rw [List.dropWhile_cons]
    by_cases hc : c = '"'
    · rw [if_neg (by simp [hc])]
      exact List.cons_ne_nil _ _
    · rw [if_pos (by simp [hc])]
      refine ih ?_
      rcases List.mem_cons.mp h with h1 | h1
      · exact absurd h1.symm hc
      · exact h1

theorem takeWhile_quote_isEmpty_iff {X : Chars} (hne : X ≠ []) :
    ((X.takeWhile (fun c => !(c == '"'))).isEmpty = true) ↔ X.head? = some '"' := by
  cases X with
  | nil => exact absurd rfl hne
  | cons c t =>
    rw [List.takeWhile_cons]
    by_cases hc : c = '"'
    · rw [if_neg (by simp [hc]), hc]
      simp
    · rw [if_pos (by simp [hc])]
      simp [hc]

theorem quote_head_transfer {T x y : Chars} {x0 y0 : Char} (hx : x.head? = some x0)
    (hy : y.head? = some y0) (hx0 : x0 ≠ '"') (hy0 : y0 ≠ '"') :
    ((T ++ x).head? = some '"') ↔ ((T ++ y).head? = some '"') := by
  cases T with
  | nil =>
    rw [List.nil_append, List.nil_append, hx, hy]
    simp [hx0, hy0]
  | cons c t => exact Iff.rfl

theorem uri_w5_head {w5 : Chars} (hw : lowerC w5 = uriLowerPat) :
    ∃ w0 wrest, w5 = w0 :: wrest ∧ lowerChar w0 = 'u' := by
  cases w5 with
  | nil => exact absurd hw (by decide)
  | cons w0 wrest =>
    refine ⟨w0, wrest, rfl, ?_⟩
    have hthis : lowerChar w0 :: lowerC wrest = uriLowerPat := hw
    rw [show uriLowerPat = 'u' :: "ri=\"".data from by decide] at hthis
    rw [List.cons.injEq] at hthis
    exact hthis.1

theorem tryMatchAt_some_decomp {l cap aft : Chars} (h : tryMatchAt l = some (cap, aft)) :
    ∃ w5, l = w5 ++ (cap ++ '"' :: aft) ∧ lowerC w5 = uriLowerPat ∧ cap ≠ [] ∧ '"' ∉ cap := by
  unfold tryMatchAt at h
  by_cases hl : leadsCI uriLowerPat l
  case neg =>
    rw [if_neg hl] at h
    exact Option.noConfusion h
  rw [if_pos hl] at h
  by_cases hc1 : ((l.drop 5).takeWhile (fun c => !(c == '"'))).isEmpty
  case pos =>
    rw [if_pos hc1] at h
    exact Option.noConfusion h
  rw [if_neg hc1] at h
  by_cases hc2 : ((l.drop 5).dropWhile (fun c => !(c == '"'))).isEmpty
  case pos =>
    rw [if_pos hc2] at h
    exact Option.noConfusion h
  rw [if_neg hc2] at h
  injection h with h
  rw [Prod.mk.injEq] at h
  obtain ⟨h1, h2⟩ := h
  cases haft : (l.drop 5).dropWhile (fun c => !(c == '"')) with
  | nil =>
    rw [haft] at hc2
    exact absurd rfl hc2
  | cons q aft2 =>
    have hqf : (fun c => !(c == '"')) q = false :=
      @dropWhile_head_false (fun c => !(c == '"')) (l.drop 5) q (by rw [haft]; rfl)
    have hq2 : q = '"' := by simpa using hqf
    rw [haft] at h2
    simp only [List.drop_succ_cons, List.drop_zero] at h2
    refine ⟨l.take 5, ?_, ?_, ?_, ?_⟩
    · have hsplit : l.drop 5 = cap ++ '"' :: aft := by
        rw [← List.takeWhile_append_dropWhile (fun c => !(c == '"')) (l.drop 5), h1, haft,
          hq2, h2]
      rw [← hsplit]
      exact (List.take_append_drop 5 l).symm
    · unfold leadsCI at hl
      rw [decide_eq_true_eq, show uriLowerPat.length = 5 from rfl] at hl
      rw [show lowerC (l.take 5) = (lowerC l).take 5 from List.map_take _ _ _]
      exact hl
    · rw [← h1]
      intro hnil
      rw [hnil] at hc1
      exact hc1 rfl
    · rw [← h1]
      intro hm
      have := List.mem_takeWhile_imp hm
      simp at this

theorem tryMatchAt_uriPat {R aft : Chars} (hne : R ≠ []) (hq : '"' ∉ R) :
    tryMatchAt (uriPat ++ (R ++ '"' :: aft)) = some (R, aft) := by
  unfold tryMatchAt
  rw [if_pos (show leadsCI uriLowerPat (uriPat ++ (R ++ '"' :: aft)) = true from by
    unfold leadsCI
    rw [decide_eq_true_eq, show uriLowerPat.length = 5 from rfl]
    exact take5_of_uriHead (by decide))]
  rw [show (uriPat ++ (R ++ '"' :: aft)).drop 5 = R ++ '"' :: aft from by
    rw [List.drop_append_of_le_length (by decide)]
    rfl]
  have hall : ∀ c ∈ R, (fun c => !(c == '"')) c = true := by
    intro c hc
    have hcne : c ≠ '"' := fun he => hq (he ▸ hc)
    simp [hcne]
  have htw : (R ++ '"' :: aft).takeWhile (fun c => !(c == '"')) = R := by
    rw [takeWhile_append_all hall, takeWhile_cons_false (by simp)]
    exact List.append_nil R
  have hdw : (R ++ '"' :: aft).dropWhile (fun c => !(c == '"')) = '"' :: aft := by
    rw [dropWhile_append_all hall]
    exact dropWhile_cons_false (by simp)
  rw [htw, hdw]
  rw [if_neg (by simpa [List.isEmpty_iff] using hne), if_neg (by simp)]
  rfl

theorem tryMatchAt_none_transfer {b a w5 cap aft : Chars}
    (ha : a ≠ []) (hw : lowerC w5 = uriLowerPat) (hq : '"' ∉ cap)
    (hnone : tryMatchAt (a ++ (w5 ++ (cap ++ '"' :: aft))) = none) :
    tryMatchAt (a ++ (uriPat ++ (resolveRelativeC b cap ++ '"' :: aft))) = none := by
  have hx5 : (lowerC (w5 ++ (cap ++ '"' :: aft))).take 5 = uriLowerPat :=
    take5_of_uriHead hw
  have hy5 : (lowerC (uriPat ++ (resolveRelativeC b cap ++ '"' :: aft))).take 5 = uriLowerPat :=
    take5_of_uriHead (by decide)
  have halen : 1 ≤ a.length := List.length_pos.mpr ha
  have hlead := leadsCI_eq_append uriLowerPat a hy5 hx5
    (Or.inl (by rw [show uriLowerPat.length = 5 from rfl]; omega))
  unfold tryMatchAt at hnone ⊢
  by_cases hl : leadsCI uriLowerPat (a ++ (w5 ++ (cap ++ '"' :: aft)))
  case neg =>
    rw [if_neg (show ¬(leadsCI uriLowerPat
      (a ++ (uriPat ++ (resolveRelativeC b cap ++ '"' :: aft))) = true) from by
        rw [hlead]; exact hl)]
  case pos =>
    rw [if_pos hl] at hnone
    rw [if_pos (show leadsCI uriLowerPat
      (a ++ (uriPat ++ (resolveRelativeC b cap ++ '"' :: aft))) = true from by
        rw [hlead]; exact hl)]
    by_cases hd : a.length < 5
    · exfalso
      unfold leadsCI at hl
      rw [decide_eq_true_eq, show uriLowerPat.length = 5 from rfl] at hl
      rw [show lowerC (a ++ (w5 ++ (cap ++ '"' :: aft)))
          = lowerC a ++ lowerC (w5 ++ (cap ++ '"' :: aft)) from List.map_append _ _ _] at hl
      rw [List.take_append_eq_append_take, lowerC_length] at hl
      rw [List.take_of_length_le (by rw [lowerC_length]; omega)] at hl
      rw [lowerC_take5 hx5 (by omega)] at hl
      have hcon := congrArg (fun z => z[a.length]?) hl
      simp only at hcon
      rw [List.getElem?_append] at hcon
      rw [if_neg (by rw [lowerC_length]; omega)] at hcon
      rw [lowerC_length, Nat.sub_self, List.getElem?_take, if_pos (by omega)] at hcon
      have hdv : a.length = 1 ∨ a.length = 2 ∨ a.length = 3 ∨ a.length = 4 := by omega
      rcases hdv with h|h|h|h <;> rw [h] at hcon <;> exact absurd hcon (by decide)
    · have h5a : 5 ≤ a.length := by omega
      rw [List.drop_append_of_le_length h5a] at hnone
      rw [List.drop_append_of_le_length h5a]
      have hqx : '"' ∈ a.drop 5 ++ (w5 ++ (cap ++ '"' :: aft)) :=
        List.mem_append.mpr (Or.inr (List.mem_append.mpr (Or.inr
          (List.mem_append.mpr (Or.inr (List.mem_cons_self _ _))))))
      have hqy : '"' ∈ a.drop 5 ++ (uriPat ++ (resolveRelativeC b cap ++ '"' :: aft)) :=
        List.mem_append.mpr (Or.inr (List.mem_append.mpr (Or.inr
          (List.mem_append.mpr (Or.inr (List.mem_cons_self _ _))))))
      have hdnx := dropWhile_quote_ne_nil hqx
      have hdny := dropWhile_quote_ne_nil hqy
      by_cases htw : ((a.drop 5 ++ (w5 ++ (cap ++ '"' :: aft))).takeWhile
          (fun c => !(c == '"'))).isEmpty
      · obtain ⟨w0, wrest, hw5, hw0⟩ := uri_w5_head hw
        have hw0ne : w0 ≠ '"' := by
          intro he
          rw [he] at hw0
          exact absurd hw0 (by decide)
        have hheadx : (w5 ++ (cap ++ '"' :: aft)).head? = some w0 := by
          rw [hw5]
          rfl
        have hheady : (uriPat ++ (resolveRelativeC b cap ++ '"' :: aft)).head? = some 'U' := rfl
        have hhx := (takeWhile_quote_isEmpty_iff (List.ne_nil_of_mem hqx)).mp htw
        have hhy := (quote_head_transfer hheadx hheady hw0ne (by decide)).mp hhx
        rw [if_pos ((takeWhile_quote_isEmpty_iff (List.ne_nil_of_mem hqy)).mpr hhy)]
      · exfalso
        rw [if_neg htw, if_neg (by simpa [List.isEmpty_iff] using hdnx)] at hnone
        exact Option.noConfusion hnone

theorem scanReplace_none_transfer {b : Chars} :
    ∀ {t m : Chars}, scanReplace b t = some m →
      ∀ a, a ≠ [] → tryMatchAt (a ++ t) = none → tryMatchAt (a ++ m) = none := by
  intro t
  induction t with
  | nil =>
    intro m h
    exact absurd h (by simp [scanReplace])
  | cons d s ih =>
    intro m h a ha hnone
    rw [scanReplace_cons_eq] at h
    cases hm : tryMatchAt (d :: s) with
    | some p =>
      obtain ⟨cap, aft⟩ := p
      simp only [hm] at h
      injection h with h
      subst h
      obtain ⟨w5, hdecomp, hw, hcne, hqcap⟩ := tryMatchAt_some_decomp hm
      rw [hdecomp] at hnone
      exact tryMatchAt_none_transfer ha hw hqcap hnone
    | none =>
      simp only [hm] at h
      rw [Option.map_eq_some'] at h
      obtain ⟨m', hm', rfl⟩ := h
      have h2 : tryMatchAt ((a ++ [d]) ++ s) = none := by
        rw [List.append_assoc, List.singleton_append]
        exact hnone
      have h3 := ih hm' (a ++ [d]) (by simp) h2
      rw [List.append_assoc, List.singleton_append] at h3
      exact h3

theorem scanReplace_idem {b : Chars} :
    ∀ {l l₁ : Chars}, scanReplace b l = some l₁ → scanReplace b l₁ = some l₁ := by
  intro l
  induction l with
  | nil =>
    intro l₁ h
    exact absurd h (by simp [scanReplace])
  | cons c t ih =>
    intro l₁ h
    rw [scanReplace_cons_eq] at h
    cases hm : tryMatchAt (c :: t) with
    | some p =>
      obtain ⟨cap, aft⟩ := p
      simp only [hm] at h
      injection h with h
      subst h
      obtain ⟨w5, hdecomp, hw, hcne, hqcap⟩ := tryMatchAt_some_decomp hm
      have hRne : resolveRelativeC b cap ≠ [] := resolveRelativeC_ne_nil hcne
      have hRq : '"' ∉ resolveRelativeC b cap := resolveRelativeC_no_quote hqcap
      show scanReplace b
        ('U' :: ('R' :: 'I' :: '=' :: '"' :: (resolveRelativeC b cap ++ '"' :: aft))) = _
      rw [scanReplace_cons_eq]
      rw [show tryMatchAt
          ('U' :: ('R' :: 'I' :: '=' :: '"' :: (resolveRelativeC b cap ++ '"' :: aft)))
          = some (resolveRelativeC b cap, aft) from tryMatchAt_uriPat hRne hRq]
      show some (uriPat ++ (resolveRelativeC b (resolveRelativeC b cap) ++ '"' :: aft)) = _
      rw [resolveRelativeC_idem]
    | none =>
      simp only [hm] at h
      rw [Option.map_eq_some'] at h
      obtain ⟨m', hm', rfl⟩ := h
      have hidem := ih hm'
      have hnone2 : tryMatchAt ([c] ++ m') = none := by
        refine scanReplace_none_transfer hm' [c] (by simp) ?_
        rw [List.singleton_append]
        exact hm
      rw [List.singleton_append] at hnone2
      rw [scanReplace_cons_eq, hnone2, hidem]
      rfl

theorem scanReplace_some_decomp {b : Chars} :
    ∀ {l l₁ : Chars}, scanReplace b l = some l₁ →
      ∃ a w5 cap aft, l = a ++ (w5 ++ (cap ++ '"' :: aft))
        ∧ l₁ = a ++ (uriPat ++ (resolveRelativeC b cap ++ '"' :: aft))
        ∧ lowerC w5 = uriLowerPat ∧ cap ≠ [] ∧ '"' ∉ cap := by
  intro l
  induction l with
  | nil =>
    intro l₁ h
    exact absurd h (by simp [scanReplace])
  | cons c t ih =>
    intro l₁ h
    rw [scanReplace_cons_eq] at h
    cases hm : tryMatchAt (c :: t) with
    | some p =>
      obtain ⟨cap, aft⟩ := p
      simp only [hm] at h
      injection h with h
      obtain ⟨w5, hdecomp, hw, hcne, hqcap⟩ := tryMatchAt_some_decomp hm
      exact ⟨[], w5, cap, aft,
        by rw [List.nil_append]; exact hdecomp,
        by rw [List.nil_append]; exact h.symm, hw, hcne, hqcap⟩
    | none =>
      simp only [hm] at h
      rw [Option.map_eq_some'] at h
      obtain ⟨m', hm', rfl⟩ := h
      obtain ⟨a, w5, cap, aft, hl2, hm2, hw, hcne, hqcap⟩ := ih hm'
      exact ⟨c :: a, w5, cap, aft, by rw [hl2, List.cons_append],
        by rw [hm2, List.cons_append], hw, hcne, hqcap⟩

theorem replaceUri_tag_eq {b l : Chars} (pat : Chars) (hq : '"' ∉ pat) :
    leadsCI pat (replaceUri b l) = leadsCI pat l := by
  unfold replaceUri
  cases h : scanReplace b l with
  | none => rfl
  | some m =>
    obtain ⟨a, w5, cap, aft, hl2, hm2, hw, hcne, hqcap⟩ := scanReplace_some_decomp h
    rw [show (some m).getD l = m from rfl, hl2, hm2]
    exact leadsCI_eq_append pat a (take5_of_uriHead (by decide))
      (take5_of_uriHead hw) (Or.inr hq)

theorem replaceUri_idem (b l : Chars) : replaceUri b (replaceUri b l) = replaceUri b l := by
  unfold replaceUri
  cases h : scanReplace b l with
  | none =>
    simp only [Option.getD_none]
    rw [h]
    rfl
  | some m =>
    simp only [Option.getD_some]
    rw [scanReplace_idem h]
    rfl

/- ===================== per-line absolutization ===================== -/

theorem trimC_subset {l : Chars} {c : Char} (h : c ∈ trimC l) : c ∈ l := by
  unfold trimC at h
  rw [List.mem_reverse] at h
  have h2 := (List.dropWhile_sublist _).subset h
  rw [List.mem_reverse] at h2
  exact (List.dropWhile_sublist _).subset h2

theorem renderUrl_hier_no_ctl {sch host : Chars} {segs : List Chars} {tail : Chars}
    (hg : GoodUrl (.hier sch host segs tail)) :
    ∀ c ∈ renderUrl (.hier sch host segs tail), c ≠ '\t' ∧ c ≠ '\n' ∧ c ≠ '\r' := by
  obtain ⟨hsch, hhost, hne, hsegs, hnodots, htail⟩ := hg
  intro c hc
  unfold renderUrl at hc
  rcases List.mem_append.mp hc with h1 | h1
  · have := isSchemeChar_ne (hsch.2.1 c h1)
    exact ⟨this.2.2.2.2.2.2.1, this.2.2.2.2.1, this.2.2.2.2.2.1⟩
  · rcases List.mem_cons.mp h1 with rfl | h1
    · exact ⟨by decide, by decide, by decide⟩
    rcases List.mem_cons.mp h1 with rfl | h1
    · exact ⟨by decide, by decide, by decide⟩
    rcases List.mem_cons.mp h1 with rfl | h1
    · exact ⟨by decide, by decide, by decide⟩
    rcases List.mem_append.mp h1 with h1 | h1
    · exact hhost.2.2 c h1
    rcases List.mem_cons.mp h1 with rfl | h1
    · exact ⟨by decide, by decide, by decide⟩
    rcases List.mem_append.mp h1 with h1 | h1
    · rcases joinSlash_mem h1 with rfl | ⟨s, hs, hcs⟩
      · exact ⟨by decide, by decide, by decide⟩
      · have := hsegs s hs c hcs
        exact ⟨this.2.2.2.2.2.2.2.1, this.2.2.2.2.2.2.2.2.1, this.2.2.2.2.2.2.2.2.2⟩
    · have := htail.2 c h1
      exact ⟨this.2.2.2.2.1, this.2.2.2.2.2.1, this.2.2.2.2.2.2⟩

theorem resolveRelativeC_ctl {b rel : Chars} {c : Char} (hc : c ∈ resolveRelativeC b rel) :
    c ∈ rel ∨ (c ≠ '\t' ∧ c ≠ '\n' ∧ c ≠ '\r') := by
  unfold resolveRelativeC at hc
  cases h : urlResolveC b rel with
  | none =>
    rw [h] at hc
    exact Or.inl hc
  | some out =>
    rw [h] at hc
    simp only [Option.getD_some] at hc
    obtain ⟨u, hg, rfl, hd⟩ := urlResolveC_good h
    rcases hd with ⟨sch, host, segs, tail, rfl⟩ | hd
    · exact Or.inr (renderUrl_hier_no_ctl hg c hc)
    · exact Or.inr (hd c hc).2

theorem replaceUri_mem {b l : Chars} {c : Char} (hc : c ∈ replaceUri b l) :
    c ∈ l ∨ c ∈ uriPat ∨ (c ≠ '\t' ∧ c ≠ '\n' ∧ c ≠ '\r') := by
  unfold replaceUri at hc
  cases h : scanReplace b l with
  | none =>
    rw [h] at hc
    exact Or.inl hc
  | some m =>
    rw [h] at hc
    simp only [Option.getD_some] at hc
    obtain ⟨a, w5, cap, aft, hl2, hm2, hw, hcne, hq2⟩ := scanReplace_some_decomp h
    rw [hm2] at hc
    rcases List.mem_append.mp hc with h1 | h1
    · left
      rw [hl2]
      exact List.mem_append.mpr (Or.inl h1)
    rcases List.mem_append.mp h1 with h1 | h1
    · exact Or.inr (Or.inl h1)
    rcases List.mem_append.mp h1 with h1 | h1
    · rcases resolveRelativeC_ctl h1 with h2 | h2
      · left
        rw [hl2]
        exact List.mem_append.mpr (Or.inr (List.mem_append.mpr (Or.inr
          (List.mem_append.mpr (Or.inl h2)))))
      · exact Or.inr (Or.inr h2)
    · rcases List.mem_cons.mp h1 with h1 | h1
      · subst h1
        exact Or.inr (Or.inl (by decide))
      · left
        rw [hl2]
        exact List.mem_append.mpr (Or.inr (List.mem_append.mpr (Or.inr
          (List.mem_append.mpr (Or.inr (List.mem_cons_of_mem _ h1))))))

theorem replaceUri_last {b l : Chars} (hcr : l.getLast? ≠ some '\r') :
    (replaceUri b l).getLast? ≠ some '\r' := by
  unfold replaceUri
  cases h : scanReplace b l with
  | none =>
    simp only [Option.getD_none]
    exact hcr
  | some m =>
    simp only [Option.getD_some]
    obtain ⟨a, w5, cap, aft, hl2, hm2, hw, hcne, hq2⟩ := scanReplace_some_decomp h
    rw [hm2]
    cases aft with
    | nil =>
      rw [show a ++ (uriPat ++ (resolveRelativeC b cap ++ '"' :: ([] : Chars)))
          = (a ++ (uriPat ++ resolveRelativeC b cap)) ++ ['"'] from by simp]
      rw [List.getLast?_concat]
      simp
    | cons a0 aft' =>
      have hTne : (a0 :: aft') ≠ [] := List.cons_ne_nil _ _
      have hnew : (a ++ (uriPat ++ (resolveRelativeC b cap ++ '"' :: (a0 :: aft')))).getLast?
          = (a0 :: aft').getLast? := by
        rw [List.getLast?_append_of_ne_nil _ (by simp),
          List.getLast?_append_of_ne_nil _ (by simp),
          List.getLast?_append_of_ne_nil _ (by simp),
          List.getLast?_cons_cons]
      have hold : l.getLast? = (a0 :: aft').getLast? := by
        rw [hl2, List.getLast?_append_of_ne_nil _ (by simp),
          List.getLast?_append_of_ne_nil _ (by simp),
          List.getLast?_append_of_ne_nil _ (by simp),
          List.getLast?_cons_cons]
      rw [hnew, ← hold]
      exact hcr

theorem leadsCI_hash_false {pat l : Chars} {c : Char} (hp : pat.head? = some '#')
    (hl : l.head? = some c) (hc : lowerChar c ≠ '#') : leadsCI pat l = false := by
  by_contra hk
  rw [Bool.not_eq_false] at hk
  obtain ⟨c', hc', he⟩ := leadsCI_head hp hk
  rw [hl] at hc'
  injection hc' with hc'
  subst hc'
  exact hc he

theorem leadsCI_hash_head {pat l : Chars} (hp : pat.head? = some '#')
    (h : leadsCI pat l = true) : l.head? = some '#' := by
  obtain ⟨c, hc, he⟩ := leadsCI_head hp h
  have hch : c = '#' := lowerChar_eq_nonletter he (by decide)
  rw [hc, hch]

theorem schemeStart_ne_hash {c : Char} (h : isSchemeStart c = true) : c ≠ '#' :=
  (isSchemeChar_ne (isSchemeStart_isSchemeChar h)).2.1

theorem schemeStart_lower_ne_hash {c : Char} (h : isSchemeStart c = true) :
    lowerChar c ≠ '#' :=
  (isSchemeChar_ne (isSchemeChar_lowerChar (isSchemeStart_isSchemeChar h))).2.1

theorem urlResolveC_none_head {b rel : Chars} (hb : IsHierBase b)
    (h : urlResolveC b rel = none) :
    ∃ c, (cleanse rel).head? = some c ∧ (isSchemeStart c = true ∨ c = '/') := by
  unfold urlResolveC at h
  cases hs : schemeSplit (cleanse rel) with
  | some p =>
    obtain ⟨s1, r1⟩ := p
    obtain ⟨hdec, ⟨c0, r0, hs1, hst⟩, hall⟩ := schemeSplit_spec hs
    refine ⟨c0, ?_, Or.inl hst⟩
    rw [hdec, hs1]
    rfl
  | none =>
    simp only [hs] at h
    obtain ⟨sch, host, segs, tail, hpb⟩ := hb
    simp only [hpb] at h
    by_cases h1 : (cleanse rel).take 2 = ['/', '/']
    · cases hcl : cleanse rel with
      | nil =>
        rw [hcl] at h1
        simp at h1
      | cons a r =>
        rw [hcl, List.take_succ_cons, List.cons.injEq] at h1
        exact ⟨'/', by rw [h1.1]; rfl, Or.inr rfl⟩
    · rw [if_neg h1] at h
      by_cases h2 : (cleanse rel).head? = some '/'
      · rw [if_pos h2] at h
        exact Option.noConfusion h
      · rw [if_neg h2] at h
        by_cases h3 : (cleanse rel).head? = some '?'
        · rw [if_pos h3] at h
          exact Option.noConfusion h
        · rw [if_neg h3] at h
          by_cases h4 : (cleanse rel).head? = some '#'
          · rw [if_pos h4] at h
            exact Option.noConfusion h
          · rw [if_neg h4] at h
            by_cases h5 : cleanse rel = []
            · rw [if_pos h5] at h
              exact Option.noConfusion h
            · rw [if_neg h5] at h
              exact Option.noConfusion h

theorem absLine_idem {b ln : Chars} (hb : IsHierBase b) :
    absLine b (absLine b ln) = absLine b ln := by
  by_cases hk : keyTag ln = true
  · have h1 : absLine b ln = replaceUri b ln := by
      unfold absLine
      rw [if_pos hk]
    rw [h1]
    have hk2 : keyTag (replaceUri b ln) = true := by
      unfold keyTag
      rw [replaceUri_tag_eq keyTagPat (by decide)]
      exact hk
    have h2 : absLine b (replaceUri b ln) = replaceUri b (replaceUri b ln) := by
      unfold absLine
      rw [if_pos hk2]
    rw [h2, replaceUri_idem]
  · by_cases hm : mapTag ln = true
    · have h1 : absLine b ln = replaceUri b ln := by
        unfold absLine
        rw [if_neg hk, if_pos hm]
      rw [h1]
      have hk2 : keyTag (replaceUri b ln) = false := by
        unfold keyTag
        rw [replaceUri_tag_eq keyTagPat (by decide)]
        exact (Bool.not_eq_true _).mp hk
      have hm2 : mapTag (replaceUri b ln) = true := by
        unfold mapTag
        rw [replaceUri_tag_eq mapTagPat (by decide)]
        exact hm
      have h2 : absLine b (replaceUri b ln) = replaceUri b (replaceUri b ln) := by
        unfold absLine
        rw [if_neg (by rw [hk2]; simp), if_pos hm2]
      rw [h2, replaceUri_idem]
    · by_cases hh : (ln.head? == some '#' || (trimC ln).isEmpty) = true
      · have h1 : absLine b ln = ln := by
          unfold absLine
          rw [if_neg hk, if_neg hm, if_pos hh]
        rw [h1]
        unfold absLine
        rw [if_neg hk, if_neg hm, if_pos hh]
      · have h1 : absLine b ln = resolveRelativeC b (trimC ln) := by
          unfold absLine
          rw [if_neg hk, if_neg hm, if_neg hh]
        rw [h1]
        have hhb : (ln.head? == some '#') = false ∧ (trimC ln).isEmpty = false := by
          have := (Bool.not_eq_true _).mp hh
          simp only [Bool.or_eq_false_iff] at this
          exact this
        cases hres : urlResolveC b (trimC ln) with
        | some r =>
          have hout : resolveRelativeC b (trimC ln) = r := by
            unfold resolveRelativeC
            rw [hres]
            rfl
          rw [hout]
          obtain ⟨u, hg, rfl, -⟩ := urlResolveC_good hres
          obtain ⟨c0, hc0, hc0s⟩ := goodUrl_head_scheme hg
          have hkey : keyTag (renderUrl u) = false :=
            leadsCI_hash_false rfl hc0 (schemeStart_lower_ne_hash hc0s)
          have hmap : mapTag (renderUrl u) = false :=
            leadsCI_hash_false rfl hc0 (schemeStart_lower_ne_hash hc0s)
          have hhash : ((renderUrl u).head? == some '#') = false := by
            rw [hc0]
            simp [schemeStart_ne_hash hc0s]
          have htrim : trimC (renderUrl u) = renderUrl u :=
            trimC_eq_of_cleanse (renderUrl_cleanse hg)
          have hempty : (trimC (renderUrl u)).isEmpty = false := by
            rw [htrim]
            cases hru : renderUrl u with
            | nil => exact absurd hru (renderUrl_ne_nil hg)
            | cons x xs => rfl
          unfold absLine
          rw [if_neg (by rw [show keyTag (renderUrl u) = false from hkey]; simp),
            if_neg (by rw [show mapTag (renderUrl u) = false from hmap]; simp),
            if_neg (by rw [hhash, hempty]; simp)]
          rw [htrim]
          exact resolveRelativeC_fixed hres
        | none =>
          have hout : resolveRelativeC b (trimC ln) = trimC ln := by
            unfold resolveRelativeC
            rw [hres]
            rfl
          rw [hout]
          have htt : trimC (trimC ln) = trimC ln := trimC_idem ln
          have htne : trimC ln ≠ [] := by
            intro h0
            rw [h0] at hhb
            exact absurd hhb.2 (by decide)
          obtain ⟨ch, hch, hcs⟩ := urlResolveC_none_head hb hres
          cases hhead : (trimC ln).head? with
          | none => exact absurd (List.head?_eq_none_iff.mp hhead) htne
          | some c1 =>
            have hc1ws : isWsChar c1 = false := trimC_head_not_ws hhead
            have hsh : (cleanse (trimC ln)).head? = some c1 := by
              show (stripCtl (trimC (trimC ln))).head? = some c1
              rw [htt]
              exact stripCtl_head hhead hc1ws
            rw [hsh] at hch
            injection hch with hch
            rw [← hch] at hcs
            have hlc : lowerChar c1 ≠ '#' ∧ c1 ≠ '#' := by
              rcases hcs with h4 | h4
              · exact ⟨schemeStart_lower_ne_hash h4, schemeStart_ne_hash h4⟩
              · rw [h4]
                exact ⟨by decide, by decide⟩
            have hkey : keyTag (trimC ln) = false :=
              leadsCI_hash_false rfl hhead hlc.1
            have hmap2 : mapTag (trimC ln) = false :=
              leadsCI_hash_false rfl hhead hlc.1
            have hhash : ((trimC ln).head? == some '#') = false := by
              rw [hhead]
              simp [hlc.2]
            have hemp : (trimC (trimC ln)).isEmpty = false := by
              rw [htt]
              exact hhb.2
            unfold absLine
            rw [if_neg (by rw [show keyTag (trimC ln) = false from hkey]; simp),
              if_neg (by rw [show mapTag (trimC ln) = false from hmap2]; simp),
              if_neg (by rw [hhash, hemp]; simp)]
            rw [htt]
            unfold resolveRelativeC
            rw [hres]
            rfl

theorem absLine_no_nl {b ln : Chars} (h : '\n' ∉ ln) : '\n' ∉ absLine b ln := by
  unfold absLine
  split
  · intro hc
    rcases replaceUri_mem hc with h1 | h1 | h1
    · exact h h1
    · exact absurd h1 (by decide)
    · exact h1.2.1 rfl
  · split
    · intro hc
      rcases replaceUri_mem hc with h1 | h1 | h1
      · exact h h1
      · exact absurd h1 (by decide)
      · exact h1.2.1 rfl
    · split
      · exact h
      · intro hc
        rcases resolveRelativeC_ctl hc with h1 | h1
        · exact h (trimC_subset h1)
        · exact h1.2.1 rfl

theorem absLine_last {b ln : Chars} (hcr : ln.getLast? ≠ some '\r') :
    (absLine b ln).getLast? ≠ some '\r' := by
  unfold absLine
  split
  · exact replaceUri_last hcr
  · split
    · exact replaceUri_last hcr
    · split
      · exact hcr
      · unfold resolveRelativeC
        cases hres : urlResolveC b (trimC ln) with
        | none =>
          simp only [Option.getD_none]
          intro hlast
          exact absurd (trimC_last_not_ws hlast) (by decide)
        | some out =>
          simp only [Option.getD_some]
          intro hlast
          obtain ⟨u, hg, rfl, hd⟩ := urlResolveC_good hres
          have hmem := mem_of_getLast_eq hlast
          rcases hd with ⟨s2, h2, g2, t2, rfl⟩ | hd
          · exact (renderUrl_hier_no_ctl hg '\r' hmem).2.2 rfl
          · exact (hd '\r' hmem).2.2.2 rfl

theorem endlistTag_absLine {b ln : Chars} (hb : IsHierBase b) :
    endlistTag (absLine b ln) = endlistTag ln := by
  by_cases hk : keyTag ln = true
  · rw [show absLine b ln = replaceUri b ln from by unfold absLine; rw [if_pos hk]]
    exact replaceUri_tag_eq endlistPat (by decide)
  · by_cases hm : mapTag ln = true
    · rw [show absLine b ln = replaceUri b ln from by unfold absLine; rw [if_neg hk, if_pos hm]]
      exact replaceUri_tag_eq endlistPat (by decide)
    · by_cases hh : (ln.head? == some '#' || (trimC ln).isEmpty) = true
      · rw [show absLine b ln = ln from by unfold absLine; rw [if_neg hk, if_neg hm, if_pos hh]]
      · rw [show absLine b ln = resolveRelativeC b (trimC ln) from by
          unfold absLine; rw [if_neg hk, if_neg hm, if_neg hh]]
        have hhb : (ln.head? == some '#') = false ∧ (trimC ln).isEmpty = false := by
          have := (Bool.not_eq_true _).mp hh
          simp only [Bool.or_eq_false_iff] at this
          exact this
        have hlnf : endlistTag ln = false := by
          by_contra hel
          rw [Bool.not_eq_false] at hel
          have := leadsCI_hash_head (show endlistPat.head? = some '#' from rfl) hel
          rw [this] at hhb
          simp at hhb
        rw [hlnf]
        cases hres : urlResolveC b (trimC ln) with
        | some r =>
          have hout : resolveRelativeC b (trimC ln) = r := by
            unfold resolveRelativeC
            rw [hres]
            rfl
          rw [hout]
          obtain ⟨u, hg, rfl, -⟩ := urlResolveC_good hres
          obtain ⟨c0, hc0, hc0s⟩ := goodUrl_head_scheme hg
          exact leadsCI_hash_false rfl hc0 (schemeStart_lower_ne_hash hc0s)
        | none =>
          have hout : resolveRelativeC b (trimC ln) = trimC ln := by
            unfold resolveRelativeC
            rw [hres]
            rfl
          rw [hout]
          have htt : trimC (trimC ln) = trimC ln := trimC_idem ln
          have htne : trimC ln ≠ [] := by
            intro h0
            rw [h0] at hhb
            exact absurd hhb.2 (by decide)
          obtain ⟨ch, hch, hcs⟩ := urlResolveC_none_head hb hres
          cases hhead : (trimC ln).head? with
          | none => exact absurd (List.head?_eq_none_iff.mp hhead) htne
          | some c1 =>
            have hc1ws : isWsChar c1 = false := trimC_head_not_ws hhead
            have hsh : (cleanse (trimC ln)).head? = some c1 := by
              show (stripCtl (trimC (trimC ln))).head? = some c1
              rw [htt]
              exact stripCtl_head hhead hc1ws
            rw [hsh] at hch
            injection hch with hch
            rw [← hch] at hcs
            have hlc : lowerChar c1 ≠ '#' := by
              rcases hcs with h4 | h4
              · exact schemeStart_lower_ne_hash h4
              · rw [h4]
                decide
            exact leadsCI_hash_false rfl hhead hlc

theorem absLine_endlistLine (b : Chars) : absLine b endlistLine = endlistLine := by
  unfold absLine
  rw [if_neg (by decide), if_neg (by decide), if_pos (by decide)]

theorem stripCr_cases (x : Chars) :
    stripCr x = x ∨ (x.getLast? = some '\r' ∧ stripCr x = x.dropLast) := by
  unfold stripCr
  split
  · next heq => exact Or.inr ⟨heq, rfl⟩
  · exact Or.inl rfl

theorem leadsCI_stripCr {pat : Chars} (hcr : '\r' ∉ pat) (x : Chars) :
    leadsCI pat (stripCr x) = leadsCI pat x := by
  rcases stripCr_cases x with h | ⟨hlast, h⟩
  · rw [h]
  · rw [h]
    have hne : x ≠ [] := by
      intro h0
      rw [h0] at hlast
      simp at hlast
    have hx : x.dropLast ++ ['\r'] = x := by
      have hfull := List.dropLast_append_getLast hne
      have hg : x.getLast hne = '\r' := by
        have h2 := List.getLast?_eq_getLast x hne
        rw [hlast] at h2
        injection h2 with h2
        exact h2.symm
      rw [hg] at hfull
      exact hfull
    by_cases hlen : pat.length ≤ x.dropLast.length
    · unfold leadsCI
      rw [decide_eq_decide]
      conv_rhs => rw [← hx]
      rw [show lowerC (x.dropLast ++ ['\r']) = lowerC x.dropLast ++ lowerC ['\r']
          from List.map_append _ _ _]
      rw [List.take_append_of_le_length (by rw [lowerC_length]; exact hlen)]
    · unfold leadsCI
      rw [decide_eq_decide]
      have hdl : x.dropLast.length = x.length - 1 := List.length_dropLast x
      have hxlen : 1 ≤ x.length := by
        cases x with
        | nil => exact absurd rfl hne
        | cons a r => simp
      constructor <;> intro he <;> exfalso
      · have hlen2 := congrArg List.length he
        rw [List.length_take, lowerC_length] at hlen2
        omega
      · have hlen2 := congrArg List.length he
        rw [List.length_take, lowerC_length] at hlen2
        apply hcr
        rw [← he, List.take_of_length_le (by rw [lowerC_length]; omega)]
        have hrx : '\r' ∈ x := mem_of_getLast_eq hlast
        exact List.mem_map.mpr ⟨'\r', hrx, by decide⟩

theorem endlistTag_stripCr (x : Chars) : endlistTag (stripCr x) = endlistTag x :=
  leadsCI_stripCr (by decide) x

/- ===================== playlist absolutization ===================== -/

theorem absolutize_no_nl (t b : Chars) :
    ∀ x ∈ (splitLinesC t).map (absLine b), '\n' ∉ x := by
  intro x hx
  obtain ⟨ln, hln, rfl⟩ := List.mem_map.mp hx
  exact absLine_no_nl (splitLinesC_mem_no_nl hln)

theorem absolutize_list_facts (t b : Chars) (hcr : NoStrayCr t) :
    ∀ x ∈ (splitLinesC t).map (absLine b), '\n' ∉ x ∧ x.getLast? ≠ some '\r' := by
  intro x hx
  obtain ⟨ln, hln, rfl⟩ := List.mem_map.mp hx
  exact ⟨absLine_no_nl (splitLinesC_mem_no_nl hln), absLine_last (hcr ln hln)⟩

theorem map_absLine_ne_nil (t b : Chars) : (splitLinesC t).map (absLine b) ≠ [] := by
  intro h
  exact splitLinesC_ne_nil t (List.map_eq_nil_iff.mp h)

theorem splitLinesC_absolutize_raw (t b : Chars) :
    splitLinesC (absolutizeChars t b)
      = mapExceptLast stripCr
          (if ((splitLinesC t).map (absLine b)).any endlistTag
           then (splitLinesC t).map (absLine b)
           else (splitLinesC t).map (absLine b) ++ [endlistLine]) := by
  unfold absolutizeChars
  by_cases hany : ((splitLinesC t).map (absLine b)).any endlistTag
  · rw [if_pos hany]
    exact splitLinesC_joinNl (map_absLine_ne_nil t b) (absolutize_no_nl t b)
  · rw [if_neg hany]
    refine splitLinesC_joinNl (by simp) ?_
    intro x hx
    rcases List.mem_append.mp hx with h1 | h1
    · exact absolutize_no_nl t b x h1
    · rw [List.mem_singleton.mp h1]
      decide

theorem splitLinesC_absolutize (t b : Chars) (hcr : NoStrayCr t) :
    splitLinesC (absolutizeChars t b)
      = (if ((splitLinesC t).map (absLine b)).any endlistTag
         then (splitLinesC t).map (absLine b)
         else (splitLinesC t).map (absLine b) ++ [endlistLine]) := by
  rw [splitLinesC_absolutize_raw t b]
  by_cases hany : ((splitLinesC t).map (absLine b)).any endlistTag
  · rw [if_pos hany]
    exact mapExceptLast_eq_self (fun x hx =>
      stripCr_eq_self (fun c hc he => (absolutize_list_facts t b hcr x hx).2 (he ▸ hc)))
  · rw [if_neg hany]
    refine mapExceptLast_eq_self ?_
    intro x hx
    refine stripCr_eq_self ?_
    intro c hc he
    rcases List.mem_append.mp hx with h1 | h1
    · exact (absolutize_list_facts t b hcr x h1).2 (he ▸ hc)
    · rw [List.mem_singleton.mp h1] at hc
      subst he
      exact absurd hc (by decide)

theorem absolutize_map_count {t b : Chars} (hb : IsHierBase b) :
    ((splitLinesC t).map (absLine b)).countP endlistTag = (splitLinesC t).countP endlistTag := by
  rw [List.countP_map]
  exact List.countP_congr (fun ln hln => by
    simp only [Function.comp_apply]
    rw [endlistTag_absLine hb])

theorem absolutize_any_eq {t b : Chars} (hb : IsHierBase b) :
    ((splitLinesC t).map (absLine b)).any endlistTag = (splitLinesC t).any endlistTag := by
  by_cases hx : (splitLinesC t).any endlistTag = true
  · rw [hx, List.any_eq_true]
    rw [List.any_eq_true] at hx
    obtain ⟨x, hxm, hxp⟩ := hx
    refine ⟨absLine b x, List.mem_map.mpr ⟨x, hxm, rfl⟩, ?_⟩
    rw [endlistTag_absLine hb]
    exact hxp
  · rw [Bool.not_eq_true] at hx
    rw [hx]
    refine Bool.eq_false_iff.mpr ?_
    intro hcon
    rw [List.any_eq_true] at hcon
    obtain ⟨x, hxm, hxp⟩ := hcon
    obtain ⟨ln, hln, rfl⟩ := List.mem_map.mp hxm
    rw [endlistTag_absLine hb] at hxp
    have hx2 := List.any_eq_true.mpr ⟨ln, hln, hxp⟩
    rw [hx] at hx2
    exact absurd hx2 (by simp)

theorem absolutizeChars_idem {t b : Chars} (hb : IsHierBase b) (hcr : NoStrayCr t) :
    absolutizeChars (absolutizeChars t b) b = absolutizeChars t b := by
  have hlines := splitLinesC_absolutize t b hcr
  show joinNl
      (if ((splitLinesC (absolutizeChars t b)).map (absLine b)).any endlistTag
       then (splitLinesC (absolutizeChars t b)).map (absLine b)
       else (splitLinesC (absolutizeChars t b)).map (absLine b) ++ [endlistLine])
    = absolutizeChars t b
  rw [hlines]
  by_cases hany : ((splitLinesC t).map (absLine b)).any endlistTag
  · rw [if_pos hany]
    have hmapfix : ((splitLinesC t).map (absLine b)).map (absLine b)
        = (splitLinesC t).map (absLine b) := by
      rw [List.map_map]
      exact List.map_congr_left (fun ln hln => by
        simp only [Function.comp_apply]
        exact absLine_idem hb)
    rw [hmapfix, if_pos hany]
    unfold absolutizeChars
    rw [if_pos hany]
  · rw [if_neg hany]
    have hmapfix2 : ((splitLinesC t).map (absLine b) ++ [endlistLine]).map (absLine b)
        = (splitLinesC t).map (absLine b) ++ [endlistLine] := by
      rw [List.map_append, List.map_map,
        List.map_congr_left (fun ln hln => by
          simp only [Function.comp_apply]
          exact absLine_idem hb),
        show List.map (absLine b) [endlistLine] = [endlistLine] from by
          rw [show List.map (absLine b) [endlistLine] = [absLine b endlistLine] from rfl,
            absLine_endlistLine]]
    rw [hmapfix2]
    have hM_any : ((splitLinesC t).map (absLine b) ++ [endlistLine]).any endlistTag = true := by
      rw [List.any_append]
      rw [show ([endlistLine].any endlistTag) = true from by decide, Bool.or_true]
    rw [if_pos hM_any]
    unfold absolutizeChars
    rw [if_neg hany]

/-- Claim C9: for every variant pipeline invocation, the temporary
working directory of the variant does not exist after the pipeline
returns, on every exit path: whatever the outcomes of the download,
prepare, transcode and upload steps, the final file-system state
contains neither the temp directory nor any path below it. -/
theorem processVariant_cleanup (env : VarEnv) (internalTaskId : String) (v : Variant)
    (fs0 : List String) :
    ((processVariant env internalTaskId v fs0).2.2).filter
        (fun p => p == env.tempName || strStarts p (env.tempName ++ "/")) = []
    ∧ ((processVariant env internalTaskId v fs0).2.2).contains env.tempName = false := by
  have hmain :
      ((processVariant env internalTaskId v fs0).2.2).filter
        (fun p => p == env.tempName || strStarts p (env.tempName ++ "/")) = [] := by
    show ((rmRecursive _ env.tempName).filter _) = []
    exact filter_not_filter _ _
  refine ⟨hmain, ?_⟩
  rw [← Bool.not_eq_true, List.contains_eq_any_beq]
  intro hc
  simp only [List.any_eq_true] at hc
  obtain ⟨p, hp, hbeq⟩ := hc
  have : p ∈ ((processVariant env internalTaskId v fs0).2.2).filter
      (fun p => p == env.tempName || strStarts p (env.tempName ++ "/")) := by
    refine List.mem_filter.mpr ⟨hp, ?_⟩
    simp only [Bool.or_eq_true]
    left
    simpa [BEq.comm] using hbeq
  rw [hmain] at this
  exact absurd this (List.not_mem_nil p)

/- ===================== C2 / C8: batch aggregation ===================== -/

theorem errsFrom_mem {n : Nat} {rs : List SettledR} {e : ErrEntry}
    (h : e ∈ (List.enumFrom n rs).filterMap (fun p =>
      match p.2 with
      | .rejected m => some { index := p.1, error := m }
      | .fulfilled _ => none)) :
    n ≤ e.index ∧ rs.get? (e.index - n) = some (.rejected e.error) := by
  induction rs generalizing n with
  | nil => simp [List.enumFrom] at h
  | cons r t ih =>
    simp only [List.enumFrom, List.filterMap_cons] at h
    cases r with
    | fulfilled v =>
      obtain ⟨h1, h2⟩ := @ih (n + 1) h
      refine ⟨by omega, ?_⟩
      have : e.index - n = (e.index - (n + 1)) + 1 := by omega
      rw [this]
      simpa using h2
    | rejected m =>
      simp only [List.mem_cons] at h
      rcases h with h | h
      · subst h
        simp
      · obtain ⟨h1, h2⟩ := @ih (n + 1) h
        refine ⟨by omega, ?_⟩
        have : e.index - n = (e.index - (n + 1)) + 1 := by omega
        rw [this]
        simpa using h2

theorem errsFrom_indices {n : Nat} {rs : List SettledR}
    (h : ∀ r ∈ rs, ∃ m, r = SettledR.rejected m) :
    ((List.enumFrom n rs).filterMap (fun p =>
      match p.2 with
      | .rejected m => some { index := p.1, error := m : ErrEntry }
      | .fulfilled _ => none)).map (fun e => e.index) = List.range' n rs.length := by
  induction rs generalizing n with
  | nil => simp [List.enumFrom]
  | cons r t ih =>
    obtain ⟨m, hm⟩ := h r (List.mem_cons_self r t)
    subst hm
    simp only [List.enumFrom, List.filterMap_cons, List.map_cons, List.length_cons,
      List.range'_succ]
    congr 1
    exact ih (fun r hr => h r (List.mem_cons_of_mem _ hr))

theorem fulfilledOf_nil_all_rejected {rs : List SettledR} (h : fulfilledOf rs = []) :
    ∀ r ∈ rs, ∃ m, r = SettledR.rejected m := by
  intro r hr
  have := List.filterMap_eq_nil_iff.mp h r hr
  cases r with
  | fulfilled v => simp at this
  | rejected m => exact ⟨m, rfl⟩

/-- Claim C2: the results list has one settled entry per scheduled
variant in order, a per-variant failure becomes a rejected entry instead
of aborting siblings, the batch reports conversion-failed exactly when no
variant fulfilled — and then carries one error entry per failed variant
index — and otherwise reports conversion-complete carrying exactly the
fulfilled results with failed indices omitted. -/
theorem aggregateBatch_spec (step : Variant → Except String VariantResult)
    (customerId taskId : String) (vars : List Variant) :
    (batchResults step vars).length = vars.length
    ∧ (∀ i, (batchResults step vars).get? i = (vars.get? i).map (runSettled step))
    ∧ ((∃ errs, aggregateBatch customerId taskId (batchResults step vars) =
          .conversionFailed customerId taskId errs) ↔ fulfilledOf (batchResults step vars) = [])
    ∧ (fulfilledOf (batchResults step vars) = [] →
        aggregateBatch customerId taskId (batchResults step vars) =
          .conversionFailed customerId taskId (errsOf (batchResults step vars))
        ∧ (errsOf (batchResults step vars)).map (fun e => e.index) =
            List.range (batchResults step vars).length
        ∧ ∀ e ∈ errsOf (batchResults step vars),
            (batchResults step vars).get? e.index = some (.rejected e.error))
    ∧ (fulfilledOf (batchResults step vars) ≠ [] →
        aggregateBatch customerId taskId (batchResults step vars) =
          .conversionComplete customerId taskId (fulfilledOf (batchResults step vars))) := by
  set rs := batchResults step vars with hrs
  refine ⟨by simp [hrs, batchResults], fun i => by simp [hrs, batchResults], ?_, ?_, ?_⟩
  · constructor
    · rintro ⟨errs, herrs⟩
      unfold aggregateBatch at herrs
      by_cases hemp : (fulfilledOf rs).isEmpty
      · exact List.isEmpty_iff.mp hemp
      · rw [if_neg hemp] at herrs
        exact absurd herrs (by simp)
    · intro hnil
      refine ⟨errsOf rs, ?_⟩
      unfold aggregateBatch
      rw [if_pos (by simp [hnil])]
  · intro hnil
    refine ⟨?_, ?_, ?_⟩
    · unfold aggregateBatch
      rw [if_pos (by simp [hnil])]
    · have hall := fulfilledOf_nil_all_rejected hnil
      have := @errsFrom_indices 0 _ hall
      rw [List.range_eq_range']
      exact this
    · intro e he
      have := @errsFrom_mem 0 _ _ he
      simpa using this.2
  · intro hne
    unfold aggregateBatch
    rw [if_neg (by simpa [List.isEmpty_iff] using hne)]

theorem aggregateBatch_spec_witness :
    (batchResults (fun _ => .error "boom") [sampleVariantNoUrl]).length = 1
    ∧ aggregateBatch "c" "T" (batchResults (fun _ => .error "boom") [sampleVariantNoUrl]) =
      .conversionFailed "c" "T" [⟨0, "boom"⟩] := by
  have h := aggregateBatch_spec (fun _ => .error "boom") "c" "T" [sampleVariantNoUrl]
  refine ⟨h.1, ?_⟩
  have := (h.2.2.2.1) (by decide)
  rw [this.1]
  decide

/-- Claim C8: for every batch outcome an outbound callback is computed —
a conversion-failed callback even when every variant failed — and the
outcome of delivering it never flows back: the emitted callback is the
same whatever the delivery function does, and safePost turns a delivery
failure into a logged flag instead of an exception. -/
theorem callback_emission_spec (step : Variant → Except String VariantResult)
    (d1 d2 : CallbackMsg → Except String Unit) (customerId taskId : String)
    (vars : List Variant) :
    (runCreatePreview step d1 customerId taskId vars).1 =
        handleCreatePreview step customerId taskId vars
    ∧ (runCreatePreview step d1 customerId taskId vars).1 =
        (runCreatePreview step d2 customerId taskId vars).1
    ∧ (fulfilledOf (batchResults step vars) = [] →
        (runCreatePreview step d1 customerId taskId vars).1 =
          .conversionFailed customerId taskId (errsOf (batchResults step vars)))
    ∧ (fulfilledOf (batchResults step vars) ≠ [] →
        (runCreatePreview step d1 customerId taskId vars).1 =
          .conversionComplete customerId taskId (fulfilledOf (batchResults step vars))) := by
  refine ⟨rfl, rfl, ?_, ?_⟩
  · intro hnil
    show handleCreatePreview step customerId taskId vars = _
    unfold handleCreatePreview aggregateBatch
    rw [if_pos (by simp [hnil])]
  · intro hne
    show handleCreatePreview step customerId taskId vars = _
    unfold handleCreatePreview aggregateBatch
    rw [if_neg (by simpa [List.isEmpty_iff] using hne)]

theorem callback_emission_spec_witness :
    (runCreatePreview (fun _ => .error "down") (fun _ => .error "delivery refused") "c" "T"
        [sampleVariantNoUrl]).1 = .conversionFailed "c" "T" [⟨0, "down"⟩] := by
  have h := callback_emission_spec (fun _ => .error "down") (fun _ => .error "delivery refused")
    (fun _ => .ok ()) "c" "T" [sampleVariantNoUrl]
  have := h.2.2.1 (by decide)
  rw [this]
  decide

/- ===================== C4: invalid variants ===================== -/

/-- Counterexample to claim C4: a variant whose normalized record has
neither URL is recorded as invalid, yet it is a member of the set handed
to the concurrency limiter — the request handler maps every normalized
variant into a scheduled call, so the invalid variant is not excluded
from the scheduled set before scheduling. -/
theorem scheduled_not_excluded_counterexample :
    hasUrlB (normalizeVariant {} 0) = false
    ∧ recordedInvalidIdx [{}] = [0]
    ∧ normalizeVariant {} 0 ∈ scheduledVariants [{}]
    ∧ (scheduledVariants [{}]).length = 1 := by
  decide

/-- Claim C4, amended: a variant with neither URL is recorded in the
invalid-diagnostic listing and is still scheduled, but its scheduled call
fails immediately inside processVariantSafe with the missing-URL error
before any step runs: no action — in particular no transcode and no
upload — is ever issued for it, and the file system is untouched. -/
theorem invalid_variant_never_processed (env : VarEnv) (internalTaskId : String)
    (v : Variant) (fs0 : List String) (hraws : List RawVariant) (i : Nat)
    (hv : hasUrlB v = false) :
    processVariantSafe env internalTaskId v fs0 =
        (.error "Variant missing audioUrl/streamUrl", [], fs0)
    ∧ (processVariantSafe env internalTaskId v fs0).2.1 = []
    ∧ ((normalizeAll hraws).get? i = some v → i ∈ recordedInvalidIdx hraws) := by
  have hsafe : processVariantSafe env internalTaskId v fs0 =
      (.error "Variant missing audioUrl/streamUrl", [], fs0) := by
    unfold processVariantSafe
    rw [hv]
    rfl
  refine ⟨hsafe, by rw [hsafe], ?_⟩
  intro hget
  unfold recordedInvalidIdx
  have hmem : (i, v) ∈ (normalizeAll hraws).enum := by
    rw [List.mem_enum_iff_getElem?]
    rw [← List.get?_eq_getElem?]
    exact hget
  refine List.mem_map.mpr ⟨(i, v), ?_, rfl⟩
  refine List.mem_filter.mpr ⟨hmem, ?_⟩
  simp [hv]

theorem invalid_variant_never_processed_witness :
    hasUrlB sampleVariantNoUrl = false
    ∧ processVariantSafe sampleEnvOk "T" sampleVariantNoUrl [] =
        (.error "Variant missing audioUrl/streamUrl", [], []) := by
  refine ⟨by decide, ?_⟩
  exact (invalid_variant_never_processed sampleEnvOk "T" sampleVariantNoUrl [] [] 0
    (by decide)).1

/- ===================== C7: upload key set ===================== -/

/-- Counterexample to claim C7: for a stream-sourced variant the working
directory holds the intermediate source.m3u8 written by the playlist
resolver, and the upload filter admits it, so the uploaded key set also
contains a key that is neither the demo playlist key nor a segment key. -/
theorem upload_key_set_counterexample :
    RAction.put "previews/T9-1/source.m3u8" "application/vnd.apple.mpegurl" ∈
        (processVariant sampleEnvOk "T9" sampleVariantStream []).2.1
    ∧ ("previews/T9-1/source.m3u8" : String) ≠ "previews/T9-1/demo.m3u8"
    ∧ (strStarts "previews/T9-1/source.m3u8" "previews/T9-1/segment") = false
    ∧ ("previews/T9-1/source.m3u8", "application/vnd.apple.mpegurl") ∈
        uploadFilesToR2 ["demo.m3u8", "segment000.ts", "source.m3u8"] "previews/T9-1/" := by
  decide

theorem string_append_left_cancel {a b c : String} (h : a ++ b = a ++ c) : b = c := by
  have hd : a.data ++ b.data = a.data ++ c.data := by
    have := congrArg String.data h
    simpa [String.data_append] using this
  exact congrArg String.mk (List.append_cancel_left hd)

/-- Claim C7, amended: for every directory listing and key prefix, the
pairs uploaded by uploadFilesToR2 are exactly one pair per listed file
ending in .m3u8 or .ts, keyed by the prefix followed by the file name,
with content type application/vnd.apple.mpegurl for playlists and
video/mp2t for segments; a file with any other extension — such as
original.mp3 — is never uploaded.  For a stream-sourced variant the
listing also contains source.m3u8, which is therefore uploaded alongside
demo.m3u8 and the segment files. -/
theorem uploadFilesToR2_spec (files : List String) (keyPre : String) :
    (∀ k ct, ((k, ct) ∈ uploadFilesToR2 files keyPre ↔
      ∃ f, f ∈ files ∧ (strEnds f ".m3u8" || strEnds f ".ts") = true ∧ k = keyPre ++ f
        ∧ ct = (if strEnds f ".m3u8" then "application/vnd.apple.mpegurl" else "video/mp2t")))
    ∧ (∀ f, f ∈ files → (strEnds f ".m3u8" || strEnds f ".ts") = false →
        ∀ ct2, (keyPre ++ f, ct2) ∉ uploadFilesToR2 files keyPre) := by
  constructor
  · intro k ct
    unfold uploadFilesToR2
    rw [List.mem_map]
    constructor
    · rintro ⟨f, hf, heq⟩
      have hmem := List.mem_filter.mp hf
      refine ⟨f, hmem.1, hmem.2, ?_, ?_⟩
      · exact (congrArg Prod.fst heq).symm
      · exact (congrArg Prod.snd heq).symm
    · rintro ⟨f, hf, hext, hk, hct⟩
      refine ⟨f, List.mem_filter.mpr ⟨hf, hext⟩, ?_⟩
      rw [hk, hct]
  · intro f hf hext ct2 hmem
    unfold uploadFilesToR2 at hmem
    rw [List.mem_map] at hmem
    obtain ⟨g, hg, heq⟩ := hmem
    have hgmem := List.mem_filter.mp hg
    have hkeys : keyPre ++ g = keyPre ++ f := congrArg Prod.fst heq
    have : g = f := string_append_left_cancel hkeys
    rw [this] at hgmem
    rw [hgmem.2] at hext
    exact absurd hext (by simp)

theorem uploadFilesToR2_spec_witness :
    ("previews/T9-0/original.mp3", "video/mp2t") ∉
        uploadFilesToR2 ["original.mp3", "demo.m3u8", "segment000.ts"] "previews/T9-0/"
    ∧ ("previews/T9-0/demo.m3u8", "application/vnd.apple.mpegurl") ∈
        uploadFilesToR2 ["original.mp3", "demo.m3u8", "segment000.ts"] "previews/T9-0/" := by
  constructor
  · exact (uploadFilesToR2_spec ["original.mp3", "demo.m3u8", "segment000.ts"]
      "previews/T9-0/").2 "original.mp3" (by decide) (by decide) "video/mp2t"
  · exact ((uploadFilesToR2_spec ["original.mp3", "demo.m3u8", "segment000.ts"]
      "previews/T9-0/").1 _ _).mpr ⟨"demo.m3u8", by decide, by decide, by decide, by decide⟩

/- ===================== C5: normalizer ===================== -/

/-- Counterexample to claim C5: two raw records that both supply the
numeric index five normalize to two records with the same index, so the
normalized indices are not unique within the batch. -/
theorem normalize_index_not_unique_counterexample :
    (normalizeAll [{ index := some 5 }, { index := some 5 }]).map (fun v => v.index) = [5, 5]
    ∧ ¬ ((normalizeAll [{ index := some 5 }, { index := some 5 }]).map
        (fun v => v.index)).Nodup := by
  decide

theorem normalizeFrom_indices {n : Nat} {raws : List RawVariant}
    (h : ∀ r ∈ raws, r.index = none ∧ r.id = none) :
    ((List.enumFrom n raws).map (fun p => normalizeVariant p.2 p.1)).map (fun v => v.index) =
      (List.range' n raws.length).map Int.ofNat := by
  induction raws generalizing n with
  | nil => simp [List.enumFrom]
  | cons r t ih =>
    obtain ⟨hi, hid⟩ := h r (List.mem_cons_self r t)
    simp only [List.enumFrom, List.map_cons, List.length_cons, List.range'_succ]
    congr 1
    · unfold normalizeVariant
      rw [hi, hid]
      rfl
    · exact ih (fun r hr => h r (List.mem_cons_of_mem _ hr))

/-- Claim C5, amended: normalization preserves length and order — entry i
of the output is the normalization of entry i of the input — and when no
input record supplies a numeric index or id, the normalized indices are
exactly the input positions and hence unique; a batch that supplies
duplicate numeric indices keeps the duplicates. -/
theorem normalizeAll_spec (raws : List RawVariant) :
    (normalizeAll raws).length = raws.length
    ∧ (∀ i, (normalizeAll raws).get? i = (raws.get? i).map (fun r => normalizeVariant r i))
    ∧ ((∀ r ∈ raws, r.index = none ∧ r.id = none) →
        (normalizeAll raws).map (fun v => v.index) = (List.range raws.length).map Int.ofNat
        ∧ ((normalizeAll raws).map (fun v => v.index)).Nodup) := by
  refine ⟨by simp [normalizeAll], ?_, ?_⟩
  · intro i
    unfold normalizeAll
    rw [List.get?_eq_getElem?, List.getElem?_map, List.getElem?_enum]
    rw [List.get?_eq_getElem?, Option.map_map]
    cases raws[i]? <;> rfl
  · intro h
    have hidx : (normalizeAll raws).map (fun v => v.index) =
        (List.range raws.length).map Int.ofNat := by
      unfold normalizeAll
      rw [List.range_eq_range']
      exact @normalizeFrom_indices 0 _ h
    refine ⟨hidx, ?_⟩
    rw [hidx]
    exact (List.nodup_range raws.length).map (fun a b hab => Int.ofNat.inj hab)

theorem normalizeAll_spec_witness :
    (normalizeAll [{ audio := some "u" }, {}]).map (fun v => v.index) = [0, 1]
    ∧ ((normalizeAll [{ audio := some "u" }, {}]).map (fun v => v.index)).Nodup := by
  have h := (normalizeAll_spec [{ audio := some "u" }, {}]).2.2 (by decide)
  refine ⟨?_, h.2⟩
  rw [h.1]
  decide

/- ===================== C1: median rendition ===================== -/

theorem pickMedianVariant_eq_sorted_middle {variants : List RenditionCandidate}
    (h : variants ≠ []) :
    ∃ hlt : variants.length / 2 < (sortByBandwidth variants).length,
      pickMedianVariant variants =
        some ((sortByBandwidth variants).get ⟨variants.length / 2, hlt⟩) := by
  have hpos : 0 < variants.length := List.length_pos.mpr h
  have hlen : (sortByBandwidth variants).length = variants.length :=
    (List.perm_insertionSort _ variants).length_eq
  have hlt : variants.length / 2 < (sortByBandwidth variants).length := by
    rw [hlen]
    exact Nat.div_lt_self hpos (by omega)
  refine ⟨hlt, ?_⟩
  unfold pickMedianVariant
  rw [if_neg (by simpa [List.isEmpty_iff] using h)]
  show ((sortByBandwidth variants).get? (variants.length / 2)).orElse
      (fun _ => (sortByBandwidth variants).get? 0) = _
  rw [List.get?_eq_get hlt]
  rfl

/-- Counterexample to claim C1: on the four-candidate bandwidth set of
one hundred through four hundred, pickMedianVariant returns the entry
with bandwidth three hundred — the upper-middle element of the sorted
list, index two — not the lower-middle entry with bandwidth two hundred
stated by the claim. -/
theorem pickMedian_even_counterexample :
    pickMedianVariant [⟨300, "u3".data⟩, ⟨100, "u1".data⟩, ⟨400, "u4".data⟩, ⟨200, "u2".data⟩] =
      some ⟨300, "u3".data⟩
    ∧ pickMedianVariant [⟨300, "u3".data⟩, ⟨100, "u1".data⟩, ⟨400, "u4".data⟩, ⟨200, "u2".data⟩] ≠
      some ⟨200, "u2".data⟩ := by
  decide

/-- Claim C1, amended: rendition selection is deterministic — the
candidates are stably sorted by bandwidth ascending and the entry at
index floor of half the count is picked, which is the middle element on
odd counts and the upper-middle element on even counts; the picked entry
is a median: at most half the candidates have strictly smaller bandwidth
and more than half have bandwidth at most its own.  For bandwidths
{100,200,300} the 200 entry is chosen, and for {100,200,300,400} the 300
entry is chosen. -/
theorem pickMedianVariant_spec (variants : List RenditionCandidate) (h : variants ≠ []) :
    (∃ c, pickMedianVariant variants = some c ∧ c ∈ variants
      ∧ variants.countP (fun x => x.bandwidth < c.bandwidth) ≤ variants.length / 2
      ∧ variants.length / 2 < variants.countP (fun x => x.bandwidth ≤ c.bandwidth))
    ∧ pickMedianVariant [⟨100, "u1".data⟩, ⟨200, "u2".data⟩, ⟨300, "u3".data⟩] =
        some ⟨200, "u2".data⟩
    ∧ pickMedianVariant
        [⟨100, "u1".data⟩, ⟨200, "u2".data⟩, ⟨300, "u3".data⟩, ⟨400, "u4".data⟩] =
        some ⟨300, "u3".data⟩ := by
  refine ⟨?_, by decide, by decide⟩
  obtain ⟨hlt, hpick⟩ := pickMedianVariant_eq_sorted_middle h
  have hperm : (sortByBandwidth variants).Perm variants := List.perm_insertionSort _ variants
  have hsort : List.Sorted (fun a b => a.bandwidth ≤ b.bandwidth) (sortByBandwidth variants) :=
    List.sorted_insertionSort _ variants
  refine ⟨(sortByBandwidth variants).get ⟨variants.length / 2, hlt⟩, hpick,
    hperm.subset ((sortByBandwidth variants).get_mem _ _), ?_, ?_⟩
  · have hdropeq : (sortByBandwidth variants).drop (variants.length / 2) =
        (sortByBandwidth variants).get ⟨variants.length / 2, hlt⟩ ::
          (sortByBandwidth variants).drop (variants.length / 2 + 1) := by
      rw [List.get_eq_getElem]
      exact List.drop_eq_getElem_cons hlt
    have hds : List.Sorted (fun a b => a.bandwidth ≤ b.bandwidth)
        ((sortByBandwidth variants).drop (variants.length / 2)) :=
      List.Pairwise.sublist (List.drop_sublist _ _) hsort
    have hcb : ∀ a ∈ (sortByBandwidth variants).drop (variants.length / 2),
        ((sortByBandwidth variants).get ⟨variants.length / 2, hlt⟩).bandwidth ≤ a.bandwidth := by
      intro a ha
      rw [hdropeq] at ha hds
      rcases List.mem_cons.mp ha with heq | ha2
      · rw [heq]
      · exact List.rel_of_sorted_cons hds a ha2
    have h0 : ((sortByBandwidth variants).drop (variants.length / 2)).countP
        (fun x => x.bandwidth <
          ((sortByBandwidth variants).get ⟨variants.length / 2, hlt⟩).bandwidth) = 0 := by
      rw [List.countP_eq_zero]
      intro a ha
      simpa using Nat.not_lt.mpr (hcb a ha)
    have hsum : (sortByBandwidth variants).countP
        (fun x => x.bandwidth <
          ((sortByBandwidth variants).get ⟨variants.length / 2, hlt⟩).bandwidth) =
        ((sortByBandwidth variants).take (variants.length / 2)).countP
          (fun x => x.bandwidth <
            ((sortByBandwidth variants).get ⟨variants.length / 2, hlt⟩).bandwidth) +
        ((sortByBandwidth variants).drop (variants.length / 2)).countP
          (fun x => x.bandwidth <
            ((sortByBandwidth variants).get ⟨variants.length / 2, hlt⟩).bandwidth) := by
      rw [← List.countP_append, List.take_append_drop]
    have htk : ((sortByBandwidth variants).take (variants.length / 2)).countP
        (fun x => x.bandwidth <
          ((sortByBandwidth variants).get ⟨variants.length / 2, hlt⟩).bandwidth) ≤
        variants.length / 2 :=
      le_trans (List.countP_le_length _)
        (by rw [List.length_take]; exact min_le_left _ _)
    have hpe := hperm.countP_eq
      (fun x => x.bandwidth <
        ((sortByBandwidth variants).get ⟨variants.length / 2, hlt⟩).bandwidth)
    omega
  · have htkeq : (sortByBandwidth variants).take (variants.length / 2 + 1) =
        (sortByBandwidth variants).take (variants.length / 2) ++
          [(sortByBandwidth variants).get ⟨variants.length / 2, hlt⟩] := by
      rw [List.get_eq_getElem, List.take_succ, List.getElem?_eq_getElem hlt]
      rfl
    have hts : List.Sorted (fun a b => a.bandwidth ≤ b.bandwidth)
        ((sortByBandwidth variants).take (variants.length / 2 + 1)) :=
      List.Pairwise.sublist (List.take_sublist _ _) hsort
    have hub : ∀ a ∈ (sortByBandwidth variants).take (variants.length / 2 + 1),
        a.bandwidth ≤
          ((sortByBandwidth variants).get ⟨variants.length / 2, hlt⟩).bandwidth := by
      intro a ha
      rw [htkeq] at ha hts
      rcases List.mem_append.mp ha with ha1 | ha2
      · exact (List.pairwise_append.mp hts).2.2 a ha1 _ (List.mem_singleton.mpr rfl)
      · rw [List.mem_singleton.mp ha2]
    have hcnt : ((sortByBandwidth variants).take (variants.length / 2 + 1)).countP
        (fun x => x.bandwidth ≤
          ((sortByBandwidth variants).get ⟨variants.length / 2, hlt⟩).bandwidth) =
        ((sortByBandwidth variants).take (variants.length / 2 + 1)).length := by
      rw [List.countP_eq_length]
      intro a ha
      simpa using hub a ha
    have hlen1 : ((sortByBandwidth variants).take (variants.length / 2 + 1)).length =
        variants.length / 2 + 1 := by
      rw [List.length_take]
      exact min_eq_left hlt
    have hmon : ((sortByBandwidth variants).take (variants.length / 2 + 1)).countP
        (fun x => x.bandwidth ≤
          ((sortByBandwidth variants).get ⟨variants.length / 2, hlt⟩).bandwidth) ≤
        (sortByBandwidth variants).countP
          (fun x => x.bandwidth ≤
            ((sortByBandwidth variants).get ⟨variants.length / 2, hlt⟩).bandwidth) :=
      List.Sublist.countP_le _ (List.take_sublist _ _)
    have hpe := hperm.countP_eq
      (fun x => x.bandwidth ≤
        ((sortByBandwidth variants).get ⟨variants.length / 2, hlt⟩).bandwidth)
    omega

theorem pickMedianVariant_spec_witness :
    (∃ c, pickMedianVariant [⟨500, "w".data⟩, ⟨100, "v".data⟩, ⟨300, "x".data⟩] = some c
      ∧ c ∈ [⟨500, "w".data⟩, ⟨100, "v".data⟩, ⟨300, "x".data⟩]
      ∧ ([⟨500, "w".data⟩, ⟨100, "v".data⟩,
          ⟨300, "x".data⟩] : List RenditionCandidate).countP
            (fun x => x.bandwidth < c.bandwidth) ≤ 3 / 2
      ∧ 3 / 2 < ([⟨500, "w".data⟩, ⟨100, "v".data⟩, ⟨300, "x".data⟩] :
          List RenditionCandidate).countP (fun x => x.bandwidth ≤ c.bandwidth)) := by
  exact (pickMedianVariant_spec [⟨500, "w".data⟩, ⟨100, "v".data⟩, ⟨300, "x".data⟩]
    (by decide)).1

/- ===================== C6: master-playlist stage ===================== -/

theorem pickMedianVariant_nil : pickMedianVariant [] = none := rfl

/-- Counterexample to claim C6: a master playlist consisting of one
stream-info line with no following URI line has one stream-info entry,
yet resolution fails with the no-renditions error, because the parser
only forms a candidate from a stream-info line that is followed by a
nonblank non-tag line. -/
theorem noRenditions_counterexample :
    resolveMasterStage "#EXT-X-STREAM-INF:BANDWIDTH=100".data "https://h.com/m".data
        (fun _ => []) = .error .noRenditions
    ∧ ((splitLinesC "#EXT-X-STREAM-INF:BANDWIDTH=100".data).filter streamInfLine).length = 1
    ∧ isMasterPlaylist "#EXT-X-STREAM-INF:BANDWIDTH=100".data = true := by
  refine ⟨rfl, by decide, by decide⟩

/-- Claim C6, amended: when the fetched text classifies as a master
playlist, resolution fails with the no-renditions error if and only if
parsing yields zero rendition candidates — a stream-info entry counts
only when a nonblank non-tag URI line follows it — and otherwise, for the
picked candidate, resolution fails with the invalid-rendition error if
and only if the re-fetched text does not classify as a media playlist,
and succeeds with the re-fetched text and the picked URL otherwise. -/
theorem resolveMasterStage_spec (text baseUrl : Chars) (fetch : Chars → Chars)
    (hm : isMasterPlaylist text = true) :
    (resolveMasterStage text baseUrl fetch = .error .noRenditions ↔
      parseVariantsFromMaster text baseUrl = [])
    ∧ (∀ pick, pickMedianVariant (parseVariantsFromMaster text baseUrl) = some pick →
        (resolveMasterStage text baseUrl fetch = .error .invalidRendition ↔
          isMediaPlaylist (fetch pick.url) = false)
        ∧ (isMediaPlaylist (fetch pick.url) = true →
            resolveMasterStage text baseUrl fetch = .ok (fetch pick.url, pick.url))) := by
  rcases hvs : parseVariantsFromMaster text baseUrl with _ | ⟨v, vs⟩
  · have hres : resolveMasterStage text baseUrl fetch = .error .noRenditions := by
      unfold resolveMasterStage
      rw [if_pos hm]
      simp only [hvs, pickMedianVariant_nil, Option.orElse, List.head?]
    refine ⟨by simp [hres, hvs], ?_⟩
    intro pick hpick
    rw [pickMedianVariant_nil] at hpick
    exact absurd hpick (by simp)
  · have hne : parseVariantsFromMaster text baseUrl ≠ [] := by rw [hvs]; simp
    obtain ⟨hlt, hpick⟩ := pickMedianVariant_eq_sorted_middle hne
    set c := (sortByBandwidth (parseVariantsFromMaster text baseUrl)).get
      ⟨(parseVariantsFromMaster text baseUrl).length / 2, hlt⟩ with hcdef
    have hres : resolveMasterStage text baseUrl fetch =
        (if isMediaPlaylist (fetch c.url) then .ok (fetch c.url, c.url)
         else .error .invalidRendition) := by
      unfold resolveMasterStage
      rw [if_pos hm]
      simp only [hpick, Option.orElse]
    constructor
    · rw [hres]
      by_cases hmedia : isMediaPlaylist (fetch c.url) <;> simp [hmedia, hvs]
    · intro pick hpick2
      rw [hvs] at hpick
      rw [hpick] at hpick2
      have hpc : pick = c := by
        injection hpick2 with h2
        exact h2.symm
      subst hpc
      constructor
      · rw [hres]
        by_cases hmedia : isMediaPlaylist (fetch c.url) <;> simp [hmedia]
      · intro hmedia
        rw [hres, if_pos hmedia]

theorem resolveMasterStage_spec_witness :
    resolveMasterStage
        "#EXTM3U\n#EXT-X-STREAM-INF:BANDWIDTH=100\nlow.m3u8\n#EXT-X-STREAM-INF:BANDWIDTH=200\nmid.m3u8\n#EXT-X-STREAM-INF:BANDWIDTH=300\nhigh.m3u8".data
        "https://h.com/m/master.m3u8".data (fun _ => "#EXTINF:10,\nseg.ts".data) =
      .ok ("#EXTINF:10,\nseg.ts".data, "https://h.com/m/mid.m3u8".data) := by
  have h := (resolveMasterStage_spec
    "#EXTM3U\n#EXT-X-STREAM-INF:BANDWIDTH=100\nlow.m3u8\n#EXT-X-STREAM-INF:BANDWIDTH=200\nmid.m3u8\n#EXT-X-STREAM-INF:BANDWIDTH=300\nhigh.m3u8".data
    "https://h.com/m/master.m3u8".data (fun _ => "#EXTINF:10,\nseg.ts".data)
    (by decide)).2 ⟨200, "https://h.com/m/mid.m3u8".data⟩ (by decide)
  exact h.2 (by decide)

end Dainify
